import Mathlib

/-!
Verification of the in-memory filesystem (`src/util/memenv/memenv.cc`).

The C++ code is shallowly embedded:

* bytes are `Nat` (the value range of `uint8_t` plays no role in any claim);
* a `FileState` is its vector of heap blocks (`List (List Nat)`, each block a
  fixed-capacity chunk) together with the logical `size`;
* the `while` loops of `AppendRaw` and the multi-block branch of `Read` are
  written with an explicit fuel argument so that they are structurally
  recursive; the fuel bound is provably sufficient (each iteration consumes at
  least one byte), so the fuel-exhausted branch is dead code;
* `Status` results are `Except Err`/`Option Err` values, one message per
  `Status::` construction in the source;
* fresh heap blocks (`new uint8_t[kBlockSize]`, uninitialized memory) are
  modelled as zero-filled blocks; no theorem below depends on the values of
  bytes that were never written through `memcpy`.
-/

/-- Error values produced by the embedded code; mirrors `Status::IOError(...)`
calls in the source (the only error constructor memenv uses). -/
inductive Err
  | ioError (msg : String)
deriving DecidableEq, Repr

/-- C++ `Status::IOError(fname, "File not found")` — the namespace's not-found error. -/
def notFoundErr : Err := Err.ioError "File not found"

/-- C++ `enum { kBlockSize = 8 * 1024 }` from `FileState`. -/
def kBlockSize : Nat := 8 * 1024

/-- C++ `class FileState`: the block vector `blocks_` and logical size `size_`.
(The reference count `refs_` lives in the namespace model below, where its
interaction with the path map is what the claims are about.) -/
structure FileState where
  blocks : List (List Nat)
  size : Nat
deriving DecidableEq, Repr

/-- C++ `FileState() : refs_(0), size_(0)` — a freshly constructed file. -/
def fs0 : FileState := ⟨[], 0⟩

/-- C++ `memcpy(block + off, data, data.length)`: overwrite the bytes of `block`
at positions `[off, off + data.length)` with `data`. -/
def writeBytes (block : List Nat) (off : Nat) (data : List Nat) : List Nat :=
  block.take off ++ data ++ block.drop (off + data.length)

/-- The number of bytes one iteration of the `AppendRaw` loop consumes:
`avail = kBlockSize - offset` (room in the tail block) or `kBlockSize`
(fresh block), clamped by `if (avail > src_len) avail = src_len`. -/
def chunkLen (fs : FileState) (src : List Nat) : Nat :=
  let offset := fs.size % kBlockSize
  min (if offset ≠ 0 then kBlockSize - offset else kBlockSize) src.length

/-- One iteration of the `AppendRaw` loop body: possibly push a fresh block
(`blocks_.push_back(new uint8_t[kBlockSize])` when the tail block is full),
then `memcpy(blocks_.back() + offset, src, avail)` and `size_ += avail`. -/
def appendChunk (fs : FileState) (src : List Nat) : FileState :=
  let offset := fs.size % kBlockSize
  let blocks := if offset ≠ 0 then fs.blocks else fs.blocks ++ [List.replicate kBlockSize 0]
  ⟨blocks.dropLast ++ [writeBytes (blocks.getLastD []) offset (src.take (chunkLen fs src))],
   fs.size + chunkLen fs src⟩

/-- The `while (src_len > 0)` loop of `FileState::AppendRaw`, with fuel.
Each iteration consumes `chunkLen fs src ≥ 1` source bytes, so fuel
`src.length` suffices and the `0` case is never reached from `appendRaw`. -/
def appendLoop : Nat → FileState → List Nat → FileState
  | 0, fs, _ => fs
  | fuel + 1, fs, src =>
    if src.isEmpty then fs
    else appendLoop fuel (appendChunk fs src) (src.drop (chunkLen fs src))

/-- C++ `Status FileState::AppendRaw(const uint8_t *src, size_t src_len)`.
The loop has no failure exit: it always ends in `return Status::OK()`,
so the embedding is a total function on the state. -/
def appendRaw (fs : FileState) (src : List Nat) : FileState :=
  appendLoop src.length fs src

/-- C++ `Status FileState::Append(const Slice&)` — delegates to `AppendRaw`,
which unconditionally returns OK. -/
def appendE (fs : FileState) (data : List Nat) : Except Err FileState :=
  .ok (appendRaw fs data)

/-- C++ `WritableFileImpl::AppendVector`: serially appends every slice,
propagating the first failure (`RETURN_NOT_OK`). -/
def appendVectorE (fs : FileState) : List (List Nat) → Except Err FileState
  | [] => .ok fs
  | d :: rest =>
    match appendE fs d with
    | .error e => .error e
    | .ok fs' => appendVectorE fs' rest

/-- C++ `Status FileState::PreAllocate(uint64_t size)`.

The C++ body is
```
uint8_t *padding = new uint8_t[size];
memset(&padding, 0, sizeof(uint8_t));
Status s = AppendRaw(padding, size);
delete [] padding;
size_ -= size;
```
The `memset` zeroes one byte of the pointer variable `padding` itself —
not the allocated buffer — so the bytes handed to `AppendRaw` are `size`
uninitialized bytes read through a corrupted pointer.  The embedding takes
those `n` unknown bytes as the explicit argument `padding`; nothing forces
them to be zero. -/
def preAllocate (fs : FileState) (padding : List Nat) : FileState :=
  let fs' := appendRaw fs padding
  ⟨fs'.blocks, fs'.size - padding.length⟩

/-- The tail of the `while (bytes_to_copy > 0)` loop of `FileState::Read`
after its first iteration, when `block_offset` has been reset to `0`:
each round copies `avail = min kBlockSize toCopy` bytes from
`blocks_[block]` and advances.  Fuel `toCopy` suffices since
`avail ≥ 1` whenever `toCopy ≥ 1`. -/
def readFull (blocks : List (List Nat)) : Nat → Nat → Nat → List Nat
  | 0, _, _ => []
  | fuel + 1, block, toCopy =>
    if toCopy = 0 then []
    else
      (blocks.getD block []).take (min kBlockSize toCopy) ++
        readFull blocks fuel (block + 1) (toCopy - min kBlockSize toCopy)

/-- The multi-block copy loop of `FileState::Read`, first iteration peeled
(the first round reads from `blocks_[block] + block_offset`; every later
round has `block_offset = 0`). -/
def readLoop (blocks : List (List Nat)) (block blockOff toCopy : Nat) : List Nat :=
  ((blocks.getD block []).drop blockOff).take (min (kBlockSize - blockOff) toCopy) ++
    readFull blocks (toCopy - min (kBlockSize - blockOff) toCopy) (block + 1)
      (toCopy - min (kBlockSize - blockOff) toCopy)

/-- C++ `Status FileState::Read(uint64_t offset, size_t n, Slice* result, uint8_t* scratch)`.
Returns the bytes placed in `*result`: the error when `offset > size_`; the
clamped empty read; the zero-copy single-block slice; or the multi-block copy
through `scratch` (the scratch buffer itself is invisible at the byte level —
only the resulting byte sequence is modelled). -/
def readAt (fs : FileState) (offset n : Nat) : Except Err (List Nat) :=
  if fs.size < offset then .error (Err.ioError "Offset greater than file size.")
  else
    if min n (fs.size - offset) = 0 then .ok []
    else
      if min n (fs.size - offset) ≤ kBlockSize - offset % kBlockSize then
        .ok (((fs.blocks.getD (offset / kBlockSize) []).drop (offset % kBlockSize)).take
          (min n (fs.size - offset)))
      else
        .ok (readLoop fs.blocks (offset / kBlockSize) (offset % kBlockSize)
          (min n (fs.size - offset)))

/-- The byte content of a file: the first `size` bytes of the concatenated
blocks.  This is the abstraction the round-trip claims are stated against. -/
def content (fs : FileState) : List Nat :=
  fs.blocks.flatten.take fs.size

/-- All stored blocks have the fixed capacity `kBlockSize`. -/
def blocksLen (fs : FileState) : Prop :=
  ∀ b ∈ fs.blocks, b.length = kBlockSize

/-- The spec's structural invariant (claim C4, verbatim):
`size ≤ blocks.length * blockSize`, and when `blocks` is non-empty
`size > (blocks.length - 1) * blockSize`. -/
def sizeInv (fs : FileState) : Prop :=
  fs.size ≤ fs.blocks.length * kBlockSize ∧
    (fs.blocks ≠ [] → (fs.blocks.length - 1) * kBlockSize < fs.size)

instance (fs : FileState) : Decidable (sizeInv fs) := by
  unfold sizeInv; infer_instance

/-- Full well-formedness of a `FileState`: uniform block capacity plus the
size/block-count invariant. -/
def WFfs (fs : FileState) : Prop :=
  blocksLen fs ∧ sizeInv fs

instance (fs : FileState) : Decidable (WFfs fs) := by
  unfold WFfs blocksLen; infer_instance

/-- A file built by a sequence of appends starting from a fresh `FileState`. -/
def buildFile (datas : List (List Nat)) : FileState :=
  datas.foldl appendRaw fs0

/-! ### Sequential-view and writable-view operation models -/

/-- One serial operation issued against a file and a sequential view bound
to it: a view `Read`, a view `Skip`, a writer `Append`, or a writer
`PreAllocate` (`padding` being the bytes the corrupted pointer happens to
reference, see `preAllocate`). -/
inductive SOp
  | sread (n : Nat)
  | sskip (n : Nat)
  | wappend (data : List Nat)
  | wpre (padding : List Nat)

/-- C++ `SequentialFileImpl::Read` / `::Skip` and the writer operations on the
shared `FileState`, acting on the pair (file, cursor `pos_`). -/
def sstep (fs : FileState) (pos : Nat) : SOp → Except Err (FileState × Nat)
  | .sread n =>
    match readAt fs pos n with
    | .error e => .error e
    | .ok r => .ok (fs, pos + r.length)
  | .sskip n =>
    if fs.size < pos then .error (Err.ioError "pos_ > file_->Size()")
    else .ok (fs, pos + min n (fs.size - pos))
  | .wappend d => .ok (appendRaw fs d, pos)
  | .wpre padding => .ok (preAllocate fs padding, pos)

def runSOps (fs : FileState) (pos : Nat) : List SOp → Except Err (FileState × Nat)
  | [] => .ok (fs, pos)
  | op :: rest =>
    match sstep fs pos op with
    | .error e => .error e
    | .ok p => runSOps p.1 p.2 rest

/-! ### Writable-file operation model (append / batch append) -/

/-- A write operation issued through the writable view: a single `Append`
or an `AppendVector` batch. -/
inductive WOp
  | append (data : List Nat)
  | appendVector (batch : List (List Nat))

/-- Total bytes an operation carries. -/
def wopLen : WOp → Nat
  | .append d => d.length
  | .appendVector b => (b.map List.length).sum

/-- The pure effect of a write operation on the file. -/
def applyWOp (fs : FileState) : WOp → FileState
  | .append d => appendRaw fs d
  | .appendVector b => b.foldl appendRaw fs

/-- Run a sequence of write operations through the status-returning wrappers
(`WritableFileImpl::Append` / `::AppendVector`), stopping at the first error. -/
def runWOps (fs : FileState) : List WOp → Except Err FileState
  | [] => .ok fs
  | op :: rest =>
    match (match op with
           | .append d => appendE fs d
           | .appendVector b => appendVectorE fs b) with
    | .error e => .error e
    | .ok fs' => runWOps fs' rest

/-! ### The in-memory namespace (`InMemoryEnv`)

Paths are `List Char` (`std::string` keys); `file_map_` is the key-sorted
association list of a `std::map`; the reference-counted heap of `FileState`
objects is an arena `List (Option FSObj)` indexed by object id, a slot
becoming `none` when `Unref` reaches zero and runs `delete this`.  Open
views (`SequentialFileImpl` / `RandomAccessFileImpl` handles) are the
multiset `views` of ids, each holding one reference. -/

abbrev FPath := List Char

/-- C++ `std::string` `operator<`: lexicographic comparison. -/
def pathLt : FPath → FPath → Bool
  | [], [] => false
  | [], _ :: _ => true
  | _ :: _, [] => false
  | a :: as, b :: bs => if a < b then true else if b < a then false else pathLt as bs

/-- A heap cell: one `FileState` together with its `refs_` counter. -/
structure FSObj where
  fs : FileState
  refs : Nat
deriving DecidableEq, Repr

structure World where
  heap : List (Option FSObj)
  fileMap : List (FPath × Nat)
  views : List Nat
deriving DecidableEq, Repr

/-- C++ `file_map_.find(p)` on the association list. -/
def lookupPath : List (FPath × Nat) → FPath → Option Nat
  | [], _ => none
  | (q, id) :: rest, p => if q = p then some id else lookupPath rest p

/-- C++ `file_map_[p] = id`: insert-or-assign keeping the `std::map` key order. -/
def insertSorted : List (FPath × Nat) → FPath → Nat → List (FPath × Nat)
  | [], p, id => [(p, id)]
  | (q, j) :: rest, p, id =>
    if pathLt p q then (p, id) :: (q, j) :: rest
    else if p = q then (p, id) :: rest
    else (q, j) :: insertSorted rest p id

/-- C++ `file_map_.erase(p)`: remove the (unique) entry with key `p`. -/
def eraseKey : List (FPath × Nat) → FPath → List (FPath × Nat)
  | [], _ => []
  | (q, j) :: rest, p => if q = p then rest else (q, j) :: eraseKey rest p

/-- C++ `FileState::Ref()` on the object with the given id (callers only invoke
it on live slots). -/
def refAt (heap : List (Option FSObj)) (id : Nat) : List (Option FSObj) :=
  match heap.getD id none with
  | some obj => heap.set id (some { obj with refs := obj.refs + 1 })
  | none => heap

/-- C++ `FileState::Unref()`: decrement, and `delete this` (slot becomes `none`)
when the count reaches zero. -/
def unrefAt (heap : List (Option FSObj)) (id : Nat) : List (Option FSObj) :=
  match heap.getD id none with
  | some obj =>
    if obj.refs - 1 = 0 then heap.set id none
    else heap.set id (some { obj with refs := obj.refs - 1 })
  | none => heap

/-- The visible reference count of a heap slot (0 once destroyed). -/
def refsAt (w : World) (id : Nat) : Nat :=
  match w.heap.getD id none with
  | some obj => obj.refs
  | none => 0

/-- The `FileState` a live slot holds (what any view bound to `id` reads). -/
def heapFs (w : World) (id : Nat) : Option FileState :=
  match w.heap.getD id none with
  | some obj => some obj.fs
  | none => none

/-- C++ `InMemoryEnv::FileExists`. -/
def fileExists (w : World) (p : FPath) : Bool :=
  (lookupPath w.fileMap p).isSome

/-- C++ `InMemoryEnv::DeleteFileInternal`: if present, `Unref` the object and
erase the mapping. -/
def deleteFileInternal (w : World) (p : FPath) : World :=
  match lookupPath w.fileMap p with
  | none => w
  | some id => { w with heap := unrefAt w.heap id, fileMap := eraseKey w.fileMap p }

/-- C++ `InMemoryEnv::DeleteFile`. -/
def deleteFile (w : World) (p : FPath) : World × Option Err :=
  match lookupPath w.fileMap p with
  | none => (w, some notFoundErr)
  | some _ => (deleteFileInternal w p, none)

/-- C++ `InMemoryEnv::RenameFile`.  `file_map_[target] = file_map_[src]` followed
by `file_map_.erase(src)`; when `src = target` the entry was just deleted, so
`operator[]` default-inserts a null mapping that the `erase` removes again —
the net map is that of `w1` (see the `none` branch). -/
def renameFile (w : World) (src target : FPath) : World × Option Err :=
  match lookupPath w.fileMap src with
  | none => (w, some notFoundErr)
  | some _ =>
    let w1 := deleteFileInternal w target
    match lookupPath w1.fileMap src with
    | some id =>
      ({ w1 with fileMap := eraseKey (insertSorted w1.fileMap target id) src }, none)
    | none => (w1, none)

/-- C++ `InMemoryEnv::NewSequentialFile` / `NewRandomAccessFile`: fail when the
path is absent, otherwise hand out a view that `Ref`s the object. -/
def openFileView (w : World) (p : FPath) : World × Option Err :=
  match lookupPath w.fileMap p with
  | none => (w, some notFoundErr)
  | some id => ({ w with heap := refAt w.heap id, views := id :: w.views }, none)

/-- A view handle's destructor: `Unref` and drop the handle. -/
def closeView (w : World) (id : Nat) : World :=
  { w with heap := unrefAt w.heap id, views := w.views.erase id }

/-- The per-entry test of `InMemoryEnv::GetChildren`:
`filename.size() >= dir.size() + 1 && filename[dir.size()] == '/' &&
Slice(filename).starts_with(Slice(dir))`. -/
def childOk (dir q : FPath) : Bool :=
  decide (dir.length + 1 ≤ q.length) && (q.getD dir.length ' ' == '/') && dir.isPrefixOf q

/-- C++ `InMemoryEnv::GetChildren`: iterate the map in key order, pushing
`filename.substr(dir.size() + 1)` for every matching entry. -/
def getChildren (w : World) (dir : FPath) : List FPath :=
  (w.fileMap.filter (fun kv => childOk dir kv.1)).map (fun kv => kv.1.drop (dir.length + 1))

/-- The directory normalization of `DeleteRecursively`: append `'/'` unless
the name already ends with it. -/
def normalizeDir (dirname : FPath) : FPath :=
  if dirname.getLast? = some '/' then dirname else dirname ++ ['/']

/-- C++ `InMemoryEnv::DeleteRecursively`.  `CHECK(!dirname.empty())` aborts on an
empty name (modelled as `none`); otherwise every mapping whose key has the
normalized prefix is erased — with no `Unref` (the heap is untouched). -/
def deleteRecursively (w : World) (dirname : FPath) : Option (World × Option Err) :=
  if dirname = [] then none
  else
    some ({ w with fileMap :=
      w.fileMap.filter (fun kv => !((normalizeDir dirname).isPrefixOf kv.1)) }, none)

/-- The bytes a reader of path `p` sees (lookup, then the object's content). -/
def pathContent (w : World) (p : FPath) : Option (List Nat) :=
  match lookupPath w.fileMap p with
  | some id => (heapFs w id).map content
  | none => none

/-- How many map entries reference object `id` (the namespace's references). -/
def countMap (fm : List (FPath × Nat)) (id : Nat) : Nat :=
  (fm.filter (fun kv => kv.2 == id)).length

/-- Reference-count consistency of one heap slot: a live object's count is
exactly the number of map entries plus open views naming it, and a dead
slot is named by neither. -/
def slotOk (w : World) (i : Nat) : Prop :=
  match w.heap.getD i none with
  | some obj => obj.refs = countMap w.fileMap i + w.views.count i ∧ 0 < obj.refs
  | none => countMap w.fileMap i = 0 ∧ w.views.count i = 0

/-- Executable form of `slotOk`. -/
def slotOkB (w : World) (i : Nat) : Bool :=
  match w.heap.getD i none with
  | some obj =>
      (obj.refs == countMap w.fileMap i + w.views.count i) && decide (0 < obj.refs)
  | none => (countMap w.fileMap i == 0) && (w.views.count i == 0)

instance (w : World) (i : Nat) : Decidable (slotOk w i) :=
  decidable_of_iff (slotOkB w i = true) (by
    unfold slotOkB slotOk
    rcases w.heap.getD i none with _ | obj <;> simp)

/-- Well-formedness of a namespace state: the map is strictly key-sorted
(`std::map`), object ids are not aliased between entries (each `FileState`
is named by at most one path, per the ownership model), all named ids are
in range, and every slot's reference count is consistent. -/
def WFw (w : World) : Prop :=
  List.Pairwise (fun a b => pathLt a.1 b.1 = true) w.fileMap ∧
  (w.fileMap.map Prod.snd).Nodup ∧
  (∀ kv ∈ w.fileMap, kv.2 < w.heap.length) ∧
  (∀ v ∈ w.views, v < w.heap.length) ∧
  (∀ i, i < w.heap.length → slotOk w i)

instance (w : World) : Decidable (WFw w) := by
  unfold WFw
  infer_instance

/-- How many entries carry key `p`. -/
def countKey (fm : List (FPath × Nat)) (p : FPath) : Nat :=
  (fm.filter (fun kv => kv.1 == p)).length

/-- The children computation as the claim words it: only paths with
`dir + separator` as a *strict* prefix contribute.  (This definition follows
the claim's words, to be compared with the code's `getChildren`.) -/
def childrenStrictSpec (w : World) (dir : FPath) : List FPath :=
  ((w.fileMap.map Prod.fst).filter
    (fun q => (dir ++ ['/']).isPrefixOf q && decide (q ≠ dir ++ ['/']))).map
    (fun q => q.drop (dir.length + 1))

/-- The spec's `deleteRecursively` example namespace:
`{"/a/b", "/a/c/d", "/ab", "/b"}`, each file referenced once by the map. -/
def wDel : World :=
  ⟨[some ⟨fs0, 1⟩, some ⟨fs0, 1⟩, some ⟨fs0, 1⟩, some ⟨fs0, 1⟩],
   [(['/', 'a', '/', 'b'], 0), (['/', 'a', '/', 'c', '/', 'd'], 1),
    (['/', 'a', 'b'], 2), (['/', 'b'], 3)], []⟩

/-- What the code actually leaves behind after `deleteRecursively("/a")` on
`wDel`: the two prefix-matching mappings gone, the heap (and so all four
reference counts) untouched. -/
def wDelAfter : World :=
  ⟨wDel.heap, [(['/', 'a', 'b'], 2), (['/', 'b'], 3)], []⟩

/-- A namespace with the single file `"/a"` (one namespace reference). -/
def wRen : World := ⟨[some ⟨fs0, 1⟩], [(['/', 'a'], 0)], []⟩

/-- Two files: `"/s"` (object 0 with content `[9]`) and `"/d"` (object 1). -/
def wRen2 : World :=
  ⟨[some ⟨⟨[[9]], 1⟩, 1⟩, some ⟨fs0, 1⟩], [(['/', 'd'], 1), (['/', 's'], 0)], []⟩

/-- One file `"/a/x"` (content `[5]`) with an open view: refcount 2. -/
def wView : World := ⟨[some ⟨⟨[[5]], 1⟩, 2⟩], [(['/', 'a', '/', 'x'], 0)], [0]⟩

/-! ### Basic facts about the append loop -/

theorem chunkLen_eq (fs : FileState) (src : List Nat) :
    chunkLen fs src =
      min (if fs.size % kBlockSize ≠ 0 then kBlockSize - fs.size % kBlockSize else kBlockSize)
        src.length := rfl

theorem chunkLen_le (fs : FileState) (src : List Nat) : chunkLen fs src ≤ src.length :=
  min_le_right _ _

theorem chunkLen_pos (fs : FileState) {src : List Nat} (hs : src ≠ []) :
    1 ≤ chunkLen fs src := by
  have h1 : 1 ≤ src.length := List.length_pos.mpr hs
  have hm : fs.size % kBlockSize < kBlockSize := Nat.mod_lt _ (by unfold kBlockSize; omega)
  rw [chunkLen_eq]
  split <;> omega

theorem kB : kBlockSize = 8192 := rfl

theorem chunkLen_le_room (fs : FileState) (src : List Nat) :
    fs.size % kBlockSize + chunkLen fs src ≤ kBlockSize := by
  have hm : fs.size % kBlockSize < kBlockSize := Nat.mod_lt _ (by rw [kB]; omega)
  rw [chunkLen_eq]
  split
  · omega
  · next h => simp only [ne_eq, Decidable.not_not] at h; omega

theorem writeBytes_length {block data : List Nat} {off : Nat}
    (h : off + data.length ≤ block.length) :
    (writeBytes block off data).length = block.length := by
  unfold writeBytes
  simp only [List.length_append, List.length_take, List.length_drop]
  omega

theorem flatten_len_uniform :
    ∀ (bs : List (List Nat)), (∀ b ∈ bs, b.length = kBlockSize) →
      bs.flatten.length = bs.length * kBlockSize := by
  intro bs h
  induction bs with
  | nil => simp
  | cons b t ih =>
    simp only [List.flatten_cons, List.length_append, List.length_cons,
      h b (List.mem_cons_self _ _), ih (fun x hx => h x (List.mem_cons_of_mem _ hx))]
    ring

theorem appendChunk_size (fs : FileState) (src : List Nat) :
    (appendChunk fs src).size = fs.size + chunkLen fs src := rfl

/-- Unfolding of `appendChunk` when the tail block has room (`offset ≠ 0`). -/
theorem appendChunk_eq_tail {fs : FileState} {L : List (List Nat)} {b : List Nat}
    (hLb : fs.blocks = L ++ [b]) (ho : fs.size % kBlockSize ≠ 0) (src : List Nat) :
    appendChunk fs src =
      ⟨L ++ [writeBytes b (fs.size % kBlockSize) (src.take (chunkLen fs src))],
       fs.size + chunkLen fs src⟩ := by
  unfold appendChunk
  simp only [if_pos ho, hLb, List.dropLast_concat, List.getLastD_concat]

/-- Unfolding of `appendChunk` when a fresh block is pushed (`offset = 0`). -/
theorem appendChunk_eq_push {fs : FileState} (ho : fs.size % kBlockSize = 0) (src : List Nat) :
    appendChunk fs src =
      ⟨fs.blocks ++ [writeBytes (List.replicate kBlockSize 0) 0 (src.take (chunkLen fs src))],
       fs.size + chunkLen fs src⟩ := by
  unfold appendChunk
  simp only [ho, ne_eq, not_true_eq_false, ite_false, List.dropLast_concat,
    List.getLastD_concat]

/-- One loop iteration preserves full well-formedness. -/
theorem appendChunk_WF {fs : FileState} (src : List Nat) (hs : src ≠ [])
    (h : WFfs fs) : WFfs (appendChunk fs src) := by
  obtain ⟨hb, h1, h2⟩ := h
  have hc1 : 1 ≤ chunkLen fs src := chunkLen_pos fs hs
  have hc2 := chunkLen_le_room fs src
  have hc3 := chunkLen_le fs src
  have hck : chunkLen fs src ≤ kBlockSize := le_trans (Nat.le_add_left _ _) hc2
  have htake : (src.take (chunkLen fs src)).length = chunkLen fs src := by
    simp only [List.length_take]; omega
  by_cases ho : fs.size % kBlockSize = 0
  · -- tail block full (or no block yet): push a fresh block and write at offset 0
    rw [appendChunk_eq_push ho src]
    have hw : (writeBytes (List.replicate kBlockSize 0) 0 (src.take (chunkLen fs src))).length
        = kBlockSize := by
      rw [writeBytes_length]
      · simp
      · simp only [List.length_replicate, Nat.zero_add, htake]; exact hck
    have hsz : fs.size = fs.blocks.length * kBlockSize := by
      rcases List.eq_nil_or_concat fs.blocks with hnil | ⟨L, b, hLb⟩
      · rw [hnil] at h1 ⊢; simp only [List.length_nil, Nat.zero_mul] at h1 ⊢; omega
      · have hne : fs.blocks ≠ [] := by rw [hLb, List.concat_eq_append]; simp
        have h2' := h2 hne
        rw [kB] at h1 h2' ho ⊢
        omega
    refine ⟨?_, ?_, ?_⟩
    · intro x hx
      rcases List.mem_append.mp hx with hx | hx
      · exact hb x hx
      · rw [List.mem_singleton] at hx; subst hx; exact hw
    · simp only [List.length_append, List.length_cons, List.length_nil]
      rw [kB] at hc2 hsz ho ⊢
      omega
    · intro _
      simp only [List.length_append, List.length_cons, List.length_nil]
      rw [kB] at hsz ⊢
      omega
  · -- room in the tail block; block list unchanged, write into the last block
    have hlenpos : fs.blocks ≠ [] := by
      intro hnil
      rw [hnil] at h1
      simp only [List.length_nil, Nat.zero_mul, Nat.le_zero] at h1
      rw [h1] at ho
      simp at ho
    obtain ⟨L, b, hLb⟩ := (List.eq_nil_or_concat fs.blocks).resolve_left hlenpos
    rw [List.concat_eq_append] at hLb
    rw [appendChunk_eq_tail hLb ho src]
    have hblen : b.length = kBlockSize := hb b (by rw [hLb]; simp)
    have hw : (writeBytes b (fs.size % kBlockSize) (src.take (chunkLen fs src))).length
        = kBlockSize := by
      rw [writeBytes_length (by rw [hblen, htake]; omega)]; exact hblen
    have hlen : fs.blocks.length = L.length + 1 := by rw [hLb]; simp
    have hmod := Nat.div_add_mod fs.size kBlockSize
    have h2' := h2 hlenpos
    refine ⟨?_, ?_, ?_⟩
    · intro x hx
      rcases List.mem_append.mp hx with hx | hx
      · exact hb x (by rw [hLb]; exact List.mem_append.mpr (Or.inl hx))
      · rw [List.mem_singleton] at hx; subst hx; exact hw
    · simp only [List.length_append, List.length_cons, List.length_nil]
      rw [kB] at hc2 hmod h1 h2' ho ⊢
      omega
    · intro _
      simp only [List.length_append, List.length_cons, List.length_nil]
      rw [kB] at h2' ⊢
      omega

/-- One loop iteration appends exactly the consumed chunk to the file content. -/
theorem appendChunk_content {fs : FileState} (src : List Nat) (hs : src ≠ [])
    (h : WFfs fs) :
    content (appendChunk fs src) = content fs ++ src.take (chunkLen fs src) := by
  obtain ⟨hb, h1, h2⟩ := h
  have hc1 : 1 ≤ chunkLen fs src := chunkLen_pos fs hs
  have hc2 := chunkLen_le_room fs src
  have hc3 := chunkLen_le fs src
  have htake : (src.take (chunkLen fs src)).length = chunkLen fs src := by
    simp only [List.length_take]; omega
  by_cases ho : fs.size % kBlockSize = 0
  · -- push a fresh block; content gains the chunk at position size = blocks.length * kBlockSize
    rw [appendChunk_eq_push ho src]
    have hsz : fs.size = fs.blocks.length * kBlockSize := by
      rcases List.eq_nil_or_concat fs.blocks with hnil | ⟨L, b, hLb⟩
      · rw [hnil] at h1 ⊢; simp only [List.length_nil, Nat.zero_mul] at h1 ⊢; omega
      · have hne : fs.blocks ≠ [] := by rw [hLb, List.concat_eq_append]; simp
        have h2' := h2 hne
        rw [kB] at h1 h2' ho ⊢
        omega
    have hFL : fs.blocks.flatten.length = fs.size := by
      rw [flatten_len_uniform fs.blocks hb, hsz]
    unfold content writeBytes
    simp only [List.flatten_append, List.flatten_cons, List.flatten_nil, List.append_nil,
      List.take_zero, List.nil_append]
    rw [show fs.size + chunkLen fs src = fs.blocks.flatten.length + chunkLen fs src by rw [hFL]]
    rw [List.take_append]
    rw [← hFL, List.take_length]
    congr 1
    rw [List.take_append_of_le_length (by rw [htake]), List.take_of_length_le (by rw [htake])]
  · -- write into the tail block at offset o = size % kBlockSize
    have hlenpos : fs.blocks ≠ [] := by
      intro hnil
      rw [hnil] at h1
      simp only [List.length_nil, Nat.zero_mul, Nat.le_zero] at h1
      rw [h1] at ho
      simp at ho
    obtain ⟨L, b, hLb⟩ := (List.eq_nil_or_concat fs.blocks).resolve_left hlenpos
    rw [List.concat_eq_append] at hLb
    rw [appendChunk_eq_tail hLb ho src]
    have hblen : b.length = kBlockSize := hb b (by rw [hLb]; simp)
    have hLlen : (∀ x ∈ L, x.length = kBlockSize) := fun x hx =>
      hb x (by rw [hLb]; exact List.mem_append.mpr (Or.inl hx))
    have hFL : L.flatten.length = L.length * kBlockSize := flatten_len_uniform L hLlen
    have hlen : fs.blocks.length = L.length + 1 := by rw [hLb]; simp
    have hmod := Nat.div_add_mod fs.size kBlockSize
    have h2' := h2 hlenpos
    -- size = |flatten L| + o where o = size % kBlockSize
    have hsz : fs.size = L.length * kBlockSize + fs.size % kBlockSize := by
      rw [kB] at h1 h2' hmod ho ⊢
      rw [hlen] at h1 h2'
      omega
    have hbo : fs.size % kBlockSize ≤ b.length := by
      rw [hblen]; rw [kB]; have := Nat.mod_lt fs.size (y := kBlockSize) (by rw [kB]; omega)
      rw [kB] at this; omega
    have hto : (b.take (fs.size % kBlockSize)).length = fs.size % kBlockSize := by
      simp only [List.length_take]; omega
    unfold content writeBytes
    rw [hLb]
    simp only [List.flatten_append, List.flatten_cons, List.flatten_nil, List.append_nil]
    set o := fs.size % kBlockSize with hodef
    have hsz' : fs.size = L.flatten.length + o := by rw [hFL]; exact hsz
    rw [hsz', Nat.add_assoc]
    rw [List.take_append, List.take_append]
    have hx : List.take (o + chunkLen fs src)
        (List.take o b ++ List.take (chunkLen fs src) src ++
          List.drop (o + (List.take (chunkLen fs src) src).length) b)
        = List.take o b ++ List.take (chunkLen fs src) src := by
      rw [List.take_append_of_le_length (by simp only [List.length_append, hto, htake]; omega),
        List.take_of_length_le (by simp only [List.length_append, hto, htake]; omega)]
    rw [hx, ← List.append_assoc]

/-- C++ `AppendRaw` adds exactly the source length to `size_`, independent of any
well-formedness of the block list. -/
theorem appendLoop_size : ∀ (fuel : Nat) (fs : FileState) (src : List Nat),
    src.length ≤ fuel → (appendLoop fuel fs src).size = fs.size + src.length := by
  intro fuel
  induction fuel with
  | zero =>
    intro fs src hle
    have : src = [] := List.length_eq_zero.mp (Nat.le_zero.mp hle)
    subst this
    rfl
  | succ fuel ih =>
    intro fs src hle
    unfold appendLoop
    by_cases hs : src.isEmpty
    · rw [if_pos hs]
      rw [List.isEmpty_iff] at hs
      subst hs
      rfl
    · rw [if_neg hs]
      rw [List.isEmpty_iff] at hs
      have hc1 : 1 ≤ chunkLen fs src := chunkLen_pos fs hs
      have hc3 := chunkLen_le fs src
      rw [ih (appendChunk fs src) (src.drop (chunkLen fs src))
        (by simp only [List.length_drop]; omega)]
      rw [appendChunk_size]
      simp only [List.length_drop]
      omega

theorem appendRaw_size (fs : FileState) (src : List Nat) :
    (appendRaw fs src).size = fs.size + src.length :=
  appendLoop_size _ fs src (Nat.le_refl _)

/-- The append loop preserves well-formedness and appends exactly `src` to
the logical content. -/
theorem appendLoop_WF_content : ∀ (fuel : Nat) (fs : FileState) (src : List Nat),
    src.length ≤ fuel → WFfs fs →
    WFfs (appendLoop fuel fs src) ∧ content (appendLoop fuel fs src) = content fs ++ src := by
  intro fuel
  induction fuel with
  | zero =>
    intro fs src hle hwf
    have : src = [] := List.length_eq_zero.mp (Nat.le_zero.mp hle)
    subst this
    exact ⟨hwf, by simp [appendLoop]⟩
  | succ fuel ih =>
    intro fs src hle hwf
    unfold appendLoop
    by_cases hs : src.isEmpty
    · rw [if_pos hs]
      rw [List.isEmpty_iff] at hs
      subst hs
      exact ⟨hwf, by simp⟩
    · rw [if_neg hs]
      rw [List.isEmpty_iff] at hs
      have hc1 : 1 ≤ chunkLen fs src := chunkLen_pos fs hs
      have hc3 := chunkLen_le fs src
      have hwf' := appendChunk_WF src hs hwf
      obtain ⟨ih1, ih2⟩ := ih (appendChunk fs src) (src.drop (chunkLen fs src))
        (by simp only [List.length_drop]; omega) hwf'
      refine ⟨ih1, ?_⟩
      rw [ih2, appendChunk_content src hs hwf, List.append_assoc, List.take_append_drop]

theorem appendRaw_WF {fs : FileState} (src : List Nat) (hwf : WFfs fs) :
    WFfs (appendRaw fs src) :=
  (appendLoop_WF_content _ fs src (Nat.le_refl _) hwf).1

theorem appendRaw_content {fs : FileState} (src : List Nat) (hwf : WFfs fs) :
    content (appendRaw fs src) = content fs ++ src :=
  (appendLoop_WF_content _ fs src (Nat.le_refl _) hwf).2

/-- The block count after one iteration. -/
theorem appendChunk_blocks_length (fs : FileState) (src : List Nat) :
    (appendChunk fs src).blocks.length =
      (if fs.size % kBlockSize ≠ 0 then fs.blocks.length - 1 + 1
       else fs.blocks.length + 1) := by
  unfold appendChunk
  by_cases ho : fs.size % kBlockSize ≠ 0
  · simp only [if_pos ho, List.length_append, List.length_dropLast, List.length_cons,
      List.length_nil]
  · simp only [if_neg ho, List.length_append, List.length_dropLast, List.length_cons,
      List.length_nil]
    omega

/-- Appending never removes blocks. -/
theorem appendLoop_blocks_le : ∀ (fuel : Nat) (fs : FileState) (src : List Nat),
    fs.blocks.length ≤ (appendLoop fuel fs src).blocks.length := by
  intro fuel
  induction fuel with
  | zero => intro fs src; exact Nat.le_refl _
  | succ fuel ih =>
    intro fs src
    unfold appendLoop
    by_cases hs : src.isEmpty
    · rw [if_pos hs]
    · rw [if_neg hs]
      refine le_trans ?_ (ih (appendChunk fs src) (src.drop (chunkLen fs src)))
      rw [appendChunk_blocks_length]
      split <;> omega

theorem appendRaw_blocks_le (fs : FileState) (src : List Nat) :
    fs.blocks.length ≤ (appendRaw fs src).blocks.length :=
  appendLoop_blocks_le _ fs src

theorem fs0_WF : WFfs fs0 := by constructor <;> simp [fs0, blocksLen, sizeInv]

theorem preAllocate_size (fs : FileState) (padding : List Nat) :
    (preAllocate fs padding).size = fs.size := by
  unfold preAllocate
  simp only [appendRaw_size]
  omega

/-! ### Facts about the read path -/

theorem readFull_zero (blocks : List (List Nat)) (fuel block : Nat) :
    readFull blocks fuel block 0 = [] := by
  cases fuel <;> simp [readFull]

theorem getD_eq_getElem_of_lt {bs : List (List Nat)} {i : Nat} (h : i < bs.length) :
    bs.getD i [] = bs[i] := by
  simp [List.getD_eq_getElem?_getD, List.getElem?_eq_getElem h]

theorem drop_flatten_cons {bs : List (List Nat)} {i : Nat} (h : i < bs.length) :
    (bs.drop i).flatten = bs.getD i [] ++ (bs.drop (i + 1)).flatten := by
  rw [List.drop_eq_getElem_cons h, List.flatten_cons, getD_eq_getElem_of_lt h]

/-- Dropping whole blocks from the flattened content drops those blocks. -/
theorem flatten_drop_blocks :
    ∀ (i : Nat) (bs : List (List Nat)), (∀ b ∈ bs, b.length = kBlockSize) →
      bs.flatten.drop (i * kBlockSize) = (bs.drop i).flatten := by
  intro i
  induction i with
  | zero => intro bs _; simp
  | succ i ih =>
    intro bs hu
    cases bs with
    | nil => simp
    | cons b t =>
      have hb : b.length = kBlockSize := hu b (List.mem_cons_self _ _)
      rw [List.flatten_cons,
        show (i + 1) * kBlockSize = b.length + i * kBlockSize by rw [hb]; ring,
        List.drop_append, ih t (fun x hx => hu x (List.mem_cons_of_mem _ hx))]
      rfl

/-- The zero-offset copy loop returns the first `m` bytes of the remaining
blocks, provided `m` fits in them and the fuel covers `m`. -/
theorem readFull_spec {bs : List (List Nat)} (hu : ∀ b ∈ bs, b.length = kBlockSize) :
    ∀ (fuel blk m : Nat), m ≤ fuel → m ≤ (bs.length - blk) * kBlockSize →
      readFull bs fuel blk m = (bs.drop blk).flatten.take m := by
  intro fuel
  induction fuel with
  | zero =>
    intro blk m hm _
    have : m = 0 := Nat.le_zero.mp hm
    subst this
    simp [readFull]
  | succ fuel ih =>
    intro blk m hm hfit
    unfold readFull
    by_cases hm0 : m = 0
    · rw [if_pos hm0, hm0]
      simp
    · rw [if_neg hm0]
      have hblk : blk < bs.length := by
        by_contra hc
        push_neg at hc
        have : bs.length - blk = 0 := by omega
        rw [this, Nat.zero_mul] at hfit
        omega
      have hlen : (bs.getD blk []).length = kBlockSize := by
        rw [getD_eq_getElem_of_lt hblk]
        exact hu _ (List.getElem_mem _)
      rw [drop_flatten_cons hblk]
      by_cases hsmall : m ≤ kBlockSize
      · -- the whole remaining request fits in this block
        have hav : min kBlockSize m = m := by omega
        rw [hav, Nat.sub_self, readFull_zero, List.append_nil,
          List.take_append_of_le_length (by rw [hlen]; omega)]
      · -- copy this whole block, recurse into the next
        push_neg at hsmall
        have hav : min kBlockSize m = kBlockSize := by omega
        rw [hav]
        rw [List.take_of_length_le (by rw [hlen])]
        conv_rhs => rw [show m = (bs.getD blk []).length + (m - kBlockSize) by
          rw [hlen]; omega]
        rw [List.take_append]
        rw [ih (blk + 1) (m - kBlockSize) (by rw [kB]; omega)
          (by rw [kB] at hfit ⊢; omega)]

/-- The multi-block copy loop (first iteration at `blockOff`, rest at offset 0)
returns the `m` bytes of the remaining blocks starting `blockOff` into block
`blk`, provided the range fits. -/
theorem readLoop_spec {bs : List (List Nat)} (hu : ∀ b ∈ bs, b.length = kBlockSize)
    {blk bo m : Nat} (hbo : bo < kBlockSize) (hblk : blk < bs.length)
    (hfit : bo + m ≤ (bs.length - blk) * kBlockSize) :
    readLoop bs blk bo m = ((bs.drop blk).flatten.drop bo).take m := by
  have hlen : (bs.getD blk []).length = kBlockSize := by
    rw [getD_eq_getElem_of_lt hblk]
    exact hu _ (List.getElem_mem _)
  unfold readLoop
  rw [drop_flatten_cons hblk,
    List.drop_append_of_le_length (by rw [hlen]; omega)]
  by_cases hsmall : m ≤ kBlockSize - bo
  · -- the whole clamped request fits in the first block
    have hav : min (kBlockSize - bo) m = m := by omega
    rw [hav, Nat.sub_self, readFull_zero, List.append_nil,
      List.take_append_of_le_length
        (by simp only [List.length_drop, hlen]; omega)]
  · push_neg at hsmall
    have hav : min (kBlockSize - bo) m = kBlockSize - bo := by omega
    rw [hav]
    rw [List.take_of_length_le (by simp only [List.length_drop, hlen]; omega)]
    conv_rhs => rw [show m = ((bs.getD blk []).drop bo).length + (m - (kBlockSize - bo)) by
      simp only [List.length_drop, hlen]; omega]
    rw [List.take_append]
    rw [readFull_spec hu _ _ _ (Nat.le_refl _) (by rw [kB] at hfit ⊢; omega)]

/-- C++ `FileState::Read` on a well-formed file: for any `offset ≤ size` the read
succeeds and returns exactly the clamped slice of the logical content,
whether it stays inside one block or crosses block boundaries. -/
theorem readAt_spec {fs : FileState} (hwf : WFfs fs) {offset : Nat} (n : Nat)
    (hoff : offset ≤ fs.size) :
    readAt fs offset n =
      .ok (((content fs).drop offset).take (min n (fs.size - offset))) := by
  obtain ⟨hu, h1, _⟩ := hwf
  unfold readAt
  rw [if_neg (by omega)]
  by_cases hn0 : min n (fs.size - offset) = 0
  · rw [if_pos hn0, hn0]
    simp
  · rw [if_neg hn0]
    have hflen : fs.blocks.flatten.length = fs.blocks.length * kBlockSize :=
      flatten_len_uniform fs.blocks hu
    have hbo : offset % kBlockSize < kBlockSize := Nat.mod_lt _ (by rw [kB]; omega)
    have hmod := Nat.div_add_mod offset kBlockSize
    have hblk : offset / kBlockSize < fs.blocks.length := by
      rw [kB] at h1 hmod ⊢
      omega
    -- dropping `offset` bytes = dropping whole blocks, then the in-block offset
    have hdec : (fs.blocks.drop (offset / kBlockSize)).flatten.drop (offset % kBlockSize)
        = fs.blocks.flatten.drop offset := by
      rw [← flatten_drop_blocks _ fs.blocks hu, List.drop_drop]
      congr 1
      exact Nat.div_add_mod' offset kBlockSize
    -- the clamped slice of the content, rewritten over the raw flattened blocks
    have hrhs : ((content fs).drop offset).take (min n (fs.size - offset))
        = (((fs.blocks.drop (offset / kBlockSize)).flatten.drop (offset % kBlockSize)).take
            (min n (fs.size - offset))) := by
      unfold content
      rw [List.drop_take, List.take_take]
      rw [show min (min n (fs.size - offset)) (fs.size - offset) = min n (fs.size - offset) by
        omega]
      rw [hdec]
    rw [hrhs]
    by_cases hone : min n (fs.size - offset) ≤ kBlockSize - offset % kBlockSize
    · -- single-block fast path: a view into the block
      rw [if_pos hone]
      have hlen : (fs.blocks.getD (offset / kBlockSize) []).length = kBlockSize := by
        rw [getD_eq_getElem_of_lt hblk]
        exact hu _ (List.getElem_mem _)
      rw [drop_flatten_cons hblk,
        List.drop_append_of_le_length (by rw [hlen]; omega),
        List.take_append_of_le_length (by simp only [List.length_drop, hlen]; omega)]
    · -- multi-block: copy through the scratch buffer
      rw [if_neg hone]
      rw [readLoop_spec hu hbo hblk ?fit]
      case fit =>
        rw [kB] at h1 hmod ⊢
        omega

theorem content_length {fs : FileState} (hwf : WFfs fs) : (content fs).length = fs.size := by
  unfold content
  rw [List.length_take, flatten_len_uniform fs.blocks hwf.1]
  have := hwf.2.1
  omega

theorem foldl_appendRaw_WF_content :
    ∀ (datas : List (List Nat)) (fs : FileState), WFfs fs →
      WFfs (datas.foldl appendRaw fs) ∧
      content (datas.foldl appendRaw fs) = content fs ++ datas.flatten ∧
      (datas.foldl appendRaw fs).size = fs.size + (datas.map List.length).sum := by
  intro datas
  induction datas with
  | nil => intro fs h; exact ⟨h, by simp, by simp⟩
  | cons d rest ih =>
    intro fs h
    obtain ⟨ih1, ih2, ih3⟩ := ih (appendRaw fs d) (appendRaw_WF d h)
    refine ⟨ih1, ?_, ?_⟩
    · rw [List.foldl_cons] at *
      rw [ih2, appendRaw_content d h, List.flatten_cons, List.append_assoc]
    · rw [List.foldl_cons] at *
      rw [ih3, appendRaw_size]
      simp only [List.map_cons, List.sum_cons]
      omega

theorem buildFile_WF (datas : List (List Nat)) : WFfs (buildFile datas) :=
  (foldl_appendRaw_WF_content datas fs0 fs0_WF).1

theorem buildFile_content (datas : List (List Nat)) :
    content (buildFile datas) = datas.flatten := by
  have h := (foldl_appendRaw_WF_content datas fs0 fs0_WF).2.1
  simpa [content, fs0] using h

theorem buildFile_size (datas : List (List Nat)) :
    (buildFile datas).size = (datas.map List.length).sum := by
  have h := (foldl_appendRaw_WF_content datas fs0 fs0_WF).2.2
  simpa [fs0] using h

theorem readFull_length_le (bs : List (List Nat)) :
    ∀ (fuel blk m : Nat), (readFull bs fuel blk m).length ≤ m := by
  intro fuel
  induction fuel with
  | zero => intro blk m; simp [readFull]
  | succ fuel ih =>
    intro blk m
    unfold readFull
    by_cases hm : m = 0
    · rw [if_pos hm]; simp
    · rw [if_neg hm]
      have h1 := ih (blk + 1) (m - min kBlockSize m)
      simp only [List.length_append, List.length_take]
      omega

theorem readLoop_length_le (bs : List (List Nat)) (blk bo m : Nat) :
    (readLoop bs blk bo m).length ≤ m := by
  unfold readLoop
  have h1 := readFull_length_le bs (m - min (kBlockSize - bo) m) (blk + 1)
    (m - min (kBlockSize - bo) m)
  simp only [List.length_append, List.length_take]
  omega

/-- A successful read never returns more than the clamped byte count
(no well-formedness needed). -/
theorem readAt_ok_length {fs : FileState} {offset n : Nat} {r : List Nat}
    (h : readAt fs offset n = .ok r) : r.length ≤ min n (fs.size - offset) := by
  unfold readAt at h
  by_cases hlt : fs.size < offset
  · rw [if_pos hlt] at h; exact absurd h (by simp)
  · rw [if_neg hlt] at h
    by_cases h0 : min n (fs.size - offset) = 0
    · rw [if_pos h0] at h
      have : r = [] := by
        have := h; injection this with h'; exact h'.symm
      subst this; simp
    · rw [if_neg h0] at h
      by_cases hone : min n (fs.size - offset) ≤ kBlockSize - offset % kBlockSize
      · rw [if_pos hone] at h
        have hr : r = ((fs.blocks.getD (offset / kBlockSize) []).drop
            (offset % kBlockSize)).take (min n (fs.size - offset)) := by
          injection h with h'; exact h'.symm
        subst hr
        simp only [List.length_take]
        omega
      · rw [if_neg hone] at h
        have hr : r = readLoop fs.blocks (offset / kBlockSize) (offset % kBlockSize)
            (min n (fs.size - offset)) := by
          injection h with h'; exact h'.symm
        subst hr
        exact readLoop_length_le _ _ _ _

/-- When the offset is in range the read succeeds. -/
theorem readAt_isOk {fs : FileState} {offset : Nat} (n : Nat) (h : offset ≤ fs.size) :
    ∃ r, readAt fs offset n = .ok r := by
  unfold readAt
  rw [if_neg (by omega)]
  by_cases h0 : min n (fs.size - offset) = 0
  · rw [if_pos h0]; exact ⟨_, rfl⟩
  · rw [if_neg h0]
    by_cases hone : min n (fs.size - offset) ≤ kBlockSize - offset % kBlockSize
    · rw [if_pos hone]; exact ⟨_, rfl⟩
    · rw [if_neg hone]; exact ⟨_, rfl⟩

/-- C++ `AppendVector` is exactly the sequential fold of single appends, and it
never fails. -/
theorem appendVectorE_eq (fs : FileState) :
    ∀ (batch : List (List Nat)), appendVectorE fs batch = .ok (batch.foldl appendRaw fs) := by
  intro batch
  induction batch generalizing fs with
  | nil => rfl
  | cons d rest ih => simp only [appendVectorE, appendE, List.foldl_cons]; exact ih _

theorem runWOps_eq (ops : List WOp) : ∀ (fs : FileState),
    runWOps fs ops = .ok (ops.foldl applyWOp fs) := by
  induction ops with
  | nil => intro fs; rfl
  | cons op rest ih =>
    intro fs
    cases op with
    | append d => simp only [runWOps, appendE, List.foldl_cons, applyWOp]; exact ih _
    | appendVector b =>
      simp only [runWOps, appendVectorE_eq, List.foldl_cons, applyWOp]
      exact ih _

theorem foldl_appendRaw_size (batch : List (List Nat)) : ∀ (fs : FileState),
    (batch.foldl appendRaw fs).size = fs.size + (batch.map List.length).sum := by
  induction batch with
  | nil => intro fs; simp
  | cons d rest ih =>
    intro fs
    simp only [List.foldl_cons, List.map_cons, List.sum_cons, ih, appendRaw_size]
    omega

theorem foldl_applyWOp_size (ops : List WOp) : ∀ (fs : FileState),
    (ops.foldl applyWOp fs).size = fs.size + (ops.map wopLen).sum := by
  induction ops with
  | nil => intro fs; simp
  | cons op rest ih =>
    intro fs
    cases op with
    | append d =>
      simp only [List.foldl_cons, List.map_cons, List.sum_cons, ih, applyWOp, wopLen,
        appendRaw_size]
      omega
    | appendVector b =>
      simp only [List.foldl_cons, List.map_cons, List.sum_cons, ih, applyWOp, wopLen,
        foldl_appendRaw_size]
      omega

/-! ### Claim theorems over `FileState` -/

/-- C1: for every file built by a sequence of appends and every
`(offset, n)` with `offset ≤ size`, `read` succeeds and returns exactly
`min n (size - offset)` bytes, byte-for-byte equal to the bytes originally
appended at that range (block-boundary crossings included: the statement
covers all offsets and lengths, and `readAt` takes the multi-block
scratch-copy path whenever the clamped range leaves the first block). -/
theorem c1_read_roundtrip (datas : List (List Nat)) (offset n : Nat)
    (hoff : offset ≤ (buildFile datas).size) :
    readAt (buildFile datas) offset n =
      .ok ((datas.flatten.drop offset).take (min n ((buildFile datas).size - offset))) ∧
    ((datas.flatten.drop offset).take (min n ((buildFile datas).size - offset))).length
      = min n ((buildFile datas).size - offset) := by
  have hwf := buildFile_WF datas
  have hc := buildFile_content datas
  constructor
  · rw [readAt_spec hwf n hoff, hc]
  · have hlen : datas.flatten.length = (buildFile datas).size := by
      rw [← hc]; exact content_length hwf
    simp only [List.length_take, List.length_drop, hlen]
    omega

/-- Witness for C1 at a concrete input: two appends, an in-range offset. -/
theorem c1_read_roundtrip_witness :
    1 ≤ (buildFile [[10, 20], [30, 40, 50]]).size ∧
    (readAt (buildFile [[10, 20], [30, 40, 50]]) 1 3 =
      .ok (([10, 20, 30, 40, 50].drop 1).take
        (min 3 ((buildFile [[10, 20], [30, 40, 50]]).size - 1))) ∧
    (([10, 20, 30, 40, 50].drop 1).take
        (min 3 ((buildFile [[10, 20], [30, 40, 50]]).size - 1))).length
      = min 3 ((buildFile [[10, 20], [30, 40, 50]]).size - 1)) :=
  ⟨by decide, by
    have h := c1_read_roundtrip [[10, 20], [30, 40, 50]] 1 3 (by decide)
    simpa using h⟩

/-- C2: `read(size, n)` succeeds with an empty result for every file and
every `n` (the boundary `offset = size` is a valid empty read), while any
`offset > size` fails with the `IOError` status built from
"Offset greater than file size."; `Read` is `const` — the embedding takes
the file only as an immutable argument, so the file is unchanged. -/
theorem c2_read_boundary (fs : FileState) (n : Nat) :
    readAt fs fs.size n = .ok [] ∧
    (∀ offset, fs.size < offset →
      readAt fs offset n = .error (Err.ioError "Offset greater than file size.")) := by
  constructor
  · unfold readAt
    rw [if_neg (lt_irrefl _), if_pos (by omega)]
  · intro offset h
    unfold readAt
    rw [if_pos h]

/-- Witness for C2 (the second conjunct has the hypothesis `size < offset`). -/
theorem c2_read_boundary_witness :
    readAt fs0 fs0.size 5 = .ok [] ∧ fs0.size < 1 ∧
    readAt fs0 1 5 = .error (Err.ioError "Offset greater than file size.") :=
  ⟨(c2_read_boundary fs0 5).1, by decide, (c2_read_boundary fs0 5).2 1 (by decide)⟩

/-- C4 counterexample: `PreAllocate` violates the claimed invariant.  On a
fresh file, preallocating a single byte (whatever garbage byte the corrupted
pointer supplies) appends one block and then takes the logical size back to
0, leaving a wholly unused trailing block: `size > (blocks.length - 1) *
blockSize` fails. -/
theorem c4_counterexample :
    sizeInv fs0 ∧ ¬ sizeInv (preAllocate fs0 [0]) := by decide

/-- C4 amended: append and batch append preserve the invariant (read does not
touch the state at all), but `PreAllocate` preserves only the upper bound
`size ≤ blocks.length * blockSize` — it deliberately leaves reserved,
wholly-unused trailing blocks behind. -/
theorem c4_invariant_amended (fs : FileState) (src pad : List Nat)
    (datas : List (List Nat)) (h : WFfs fs) :
    sizeInv (appendRaw fs src) ∧
    sizeInv (datas.foldl appendRaw fs) ∧
    (preAllocate fs pad).size ≤ (preAllocate fs pad).blocks.length * kBlockSize := by
  refine ⟨(appendRaw_WF src h).2, (foldl_appendRaw_WF_content datas fs h).1.2, ?_⟩
  rw [preAllocate_size]
  calc fs.size ≤ fs.blocks.length * kBlockSize := h.2.1
    _ ≤ (appendRaw fs pad).blocks.length * kBlockSize :=
        Nat.mul_le_mul_right _ (appendRaw_blocks_le fs pad)

/-- Witness for C4's amended theorem at a concrete well-formed file. -/
theorem c4_invariant_amended_witness :
    WFfs fs0 ∧
    (sizeInv (appendRaw fs0 [1, 2]) ∧
     sizeInv ([[3], [4]].foldl appendRaw fs0) ∧
     (preAllocate fs0 [5]).size ≤ (preAllocate fs0 [5]).blocks.length * kBlockSize) :=
  ⟨fs0_WF, c4_invariant_amended fs0 [1, 2] [5] [[3], [4]] fs0_WF⟩

/-- C5: evaluation of `PreAllocate` at a failing input.  The claim says the
code appends `n` zero bytes; in fact `memset(&padding, 0, sizeof(uint8_t))`
zeroes one byte of the pointer instead of the buffer, so the appended bytes
are whatever the corrupted pointer references (here the byte 7): the stored
reserved byte is 7, not 0, while the visible size still returns to 0 and the
block count has grown. -/
theorem c5_preallocate_padding_not_zeroed :
    (preAllocate fs0 [7]).size = 0 ∧
    (preAllocate fs0 [7]).blocks.length = 1 ∧
    (preAllocate fs0 [7]).blocks.flatten.take 1 = [7] := by decide

/-- C9: every append succeeds (the status-returning run equals the pure
fold), a batch append is exactly the in-order sequence of its single-item
appends, and the final size is the sum of all appended lengths. -/
theorem c9_append_algebra (ops : List WOp) :
    runWOps fs0 ops = .ok (ops.foldl applyWOp fs0) ∧
    (ops.foldl applyWOp fs0).size = (ops.map wopLen).sum ∧
    (∀ (fs : FileState) (batch : List (List Nat)),
      appendVectorE fs batch = .ok (batch.foldl appendRaw fs)) := by
  refine ⟨runWOps_eq ops fs0, ?_, fun fs batch => appendVectorE_eq fs batch⟩
  rw [foldl_applyWOp_size]
  simp [fs0]

/-- C10: in every serial sequence of sequential-view reads/skips and writer
appends/preallocates, the cursor never exceeds the file size, every
operation succeeds, and in particular the `pos_ > file_->Size()` branch of
`Skip` and the offset-too-large error of reads through the view are never
taken. -/
theorem c10_cursor_in_bounds :
    ∀ (ops : List SOp) (fs : FileState) (pos : Nat), pos ≤ fs.size →
      ∃ fs' pos', runSOps fs pos ops = .ok (fs', pos') ∧ pos' ≤ fs'.size := by
  intro ops
  induction ops with
  | nil => intro fs pos h; exact ⟨fs, pos, rfl, h⟩
  | cons op rest ih =>
    intro fs pos h
    cases op with
    | sread n =>
      obtain ⟨r, hr⟩ := readAt_isOk n h
      have hlen := readAt_ok_length hr
      have hnext : pos + r.length ≤ fs.size := by omega
      obtain ⟨fs', pos', hrun, hle⟩ := ih fs (pos + r.length) hnext
      exact ⟨fs', pos', by simp only [runSOps, sstep, hr]; exact hrun, hle⟩
    | sskip n =>
      have hnext : pos + min n (fs.size - pos) ≤ fs.size := by omega
      obtain ⟨fs', pos', hrun, hle⟩ := ih fs (pos + min n (fs.size - pos)) hnext
      refine ⟨fs', pos', ?_, hle⟩
      simp only [runSOps, sstep, if_neg (by omega : ¬ fs.size < pos)]
      exact hrun
    | wappend d =>
      have hnext : pos ≤ (appendRaw fs d).size := by rw [appendRaw_size]; omega
      obtain ⟨fs', pos', hrun, hle⟩ := ih (appendRaw fs d) pos hnext
      exact ⟨fs', pos', hrun, hle⟩
    | wpre padding =>
      have hnext : pos ≤ (preAllocate fs padding).size := by rw [preAllocate_size]; omega
      obtain ⟨fs', pos', hrun, hle⟩ := ih (preAllocate fs padding) pos hnext
      exact ⟨fs', pos', hrun, hle⟩

/-- Witness for C10 on a concrete serial history. -/
theorem c10_cursor_in_bounds_witness :
    0 ≤ fs0.size ∧
    ∃ fs' pos',
      runSOps fs0 0 [.wappend [1, 2], .sread 1, .sskip 5, .wpre [9], .sread 3] = .ok (fs', pos') ∧
      pos' ≤ fs'.size :=
  ⟨Nat.zero_le _,
   c10_cursor_in_bounds [.wappend [1, 2], .sread 1, .sskip 5, .wpre [9], .sread 3] fs0 0
     (Nat.zero_le _)⟩

/-! ### Association-list and heap lemmas -/

theorem pathLt_irrefl : ∀ p : FPath, pathLt p p = false := by
  intro p
  induction p with
  | nil => rfl
  | cons a as ih => simp [pathLt, ih]

theorem keysNodup_of_sorted {fm : List (FPath × Nat)}
    (h : List.Pairwise (fun a b => pathLt a.1 b.1 = true) fm) :
    (fm.map Prod.fst).Nodup := by
  unfold List.Nodup
  rw [List.pairwise_map]
  refine h.imp ?_
  intro a b hab he
  rw [he, pathLt_irrefl] at hab
  exact Bool.false_ne_true hab

theorem countKey_cons (q : FPath) (j : Nat) (rest : List (FPath × Nat)) (p : FPath) :
    countKey ((q, j) :: rest) p = (if q = p then 1 else 0) + countKey rest p := by
  unfold countKey
  rw [List.filter_cons]
  by_cases hq : q = p
  · rw [if_pos hq, show ((q, j).1 == p) = true by simp [hq], if_pos rfl, List.length_cons]
    omega
  · rw [if_neg hq, show ((q, j).1 == p) = false by simp [hq],
      if_neg (by simp), Nat.zero_add]

theorem countMap_cons (q : FPath) (j : Nat) (rest : List (FPath × Nat)) (i : Nat) :
    countMap ((q, j) :: rest) i = (if j = i then 1 else 0) + countMap rest i := by
  unfold countMap
  rw [List.filter_cons]
  by_cases hj : j = i
  · rw [if_pos hj, show ((q, j).2 == i) = true by simp [hj], if_pos rfl, List.length_cons]
    omega
  · rw [if_neg hj, show ((q, j).2 == i) = false by simp [hj],
      if_neg (by simp), Nat.zero_add]

theorem lookupPath_eq_none_iff {fm : List (FPath × Nat)} {p : FPath} :
    lookupPath fm p = none ↔ p ∉ fm.map Prod.fst := by
  induction fm with
  | nil => simp [lookupPath]
  | cons kv rest ih =>
    obtain ⟨q, id⟩ := kv
    simp only [lookupPath, List.map_cons, List.mem_cons]
    by_cases h : q = p
    · simp [h]
    · rw [if_neg h, ih]
      constructor
      · intro hn hor
        rcases hor with he | hm
        · exact h he.symm
        · exact hn hm
      · intro hn hm
        exact hn (Or.inr hm)

theorem lookupPath_mem {fm : List (FPath × Nat)} {p : FPath} {id : Nat}
    (h : lookupPath fm p = some id) : (p, id) ∈ fm := by
  induction fm with
  | nil => simp [lookupPath] at h
  | cons kv rest ih =>
    obtain ⟨q, j⟩ := kv
    by_cases hq : q = p
    · simp only [lookupPath, if_pos hq] at h
      injection h with h
      subst hq h
      exact List.mem_cons_self _ _
    · simp only [lookupPath, if_neg hq] at h
      exact List.mem_cons_of_mem _ (ih h)

theorem lookupPath_isSome_iff {fm : List (FPath × Nat)} {p : FPath} :
    (lookupPath fm p).isSome ↔ p ∈ fm.map Prod.fst := by
  cases hl : lookupPath fm p with
  | none =>
    simp only [Option.isSome_none, Bool.false_eq_true, false_iff]
    exact lookupPath_eq_none_iff.mp hl
  | some id =>
    simp only [Option.isSome_some, true_iff]
    exact List.mem_map.mpr ⟨(p, id), lookupPath_mem hl, rfl⟩

theorem countMap_pos_of_lookup {fm : List (FPath × Nat)} {p : FPath} {id : Nat}
    (h : lookupPath fm p = some id) : 1 ≤ countMap fm id := by
  have hm : (p, id) ∈ fm.filter (fun kv => kv.2 == id) :=
    List.mem_filter.mpr ⟨lookupPath_mem h, by simp⟩
  have := List.length_pos.mpr (List.ne_nil_of_mem hm)
  unfold countMap
  omega

theorem eraseKey_sublist : ∀ (fm : List (FPath × Nat)) (p : FPath),
    (eraseKey fm p).Sublist fm := by
  intro fm p
  induction fm with
  | nil => simp [eraseKey]
  | cons kv rest ih =>
    obtain ⟨q, j⟩ := kv
    by_cases hq : q = p
    · simp only [eraseKey, if_pos hq]
      exact List.sublist_cons_self _ _
    · simp only [eraseKey, if_neg hq]
      exact ih.cons₂ _

theorem lookupPath_eraseKey_ne {fm : List (FPath × Nat)} {p q : FPath} (h : q ≠ p) :
    lookupPath (eraseKey fm p) q = lookupPath fm q := by
  induction fm with
  | nil => rfl
  | cons kv rest ih =>
    obtain ⟨r, j⟩ := kv
    by_cases hr : r = p
    · subst hr
      rw [show eraseKey ((r, j) :: rest) r = rest by simp [eraseKey]]
      simp only [lookupPath, if_neg (show ¬ r = q from fun he => h (Eq.symm he))]
    · by_cases hrq : r = q
      · simp only [eraseKey, if_neg hr, lookupPath, if_pos hrq]
      · simp only [eraseKey, if_neg hr, lookupPath, if_neg hrq, ih]

theorem countKey_eq_zero_iff {fm : List (FPath × Nat)} {p : FPath} :
    countKey fm p = 0 ↔ p ∉ fm.map Prod.fst := by
  induction fm with
  | nil => simp [countKey]
  | cons kv rest ih =>
    obtain ⟨q, j⟩ := kv
    rw [countKey_cons]
    simp only [List.map_cons, List.mem_cons]
    by_cases hq : q = p
    · simp [hq]
    · rw [if_neg hq, Nat.zero_add, ih]
      constructor
      · intro hn hor
        rcases hor with he | hm
        · exact hq he.symm
        · exact hn hm
      · intro hn hm
        exact hn (Or.inr hm)

theorem countKey_le_one_of_nodup {fm : List (FPath × Nat)}
    (h : (fm.map Prod.fst).Nodup) : ∀ p, countKey fm p ≤ 1 := by
  induction fm with
  | nil => intro p; simp [countKey]
  | cons kv rest ih =>
    obtain ⟨q, j⟩ := kv
    intro p
    simp only [List.map_cons, List.nodup_cons] at h
    rw [countKey_cons]
    by_cases hq : q = p
    · have h0 : countKey rest p = 0 := countKey_eq_zero_iff.mpr (by rw [← hq]; exact h.1)
      rw [if_pos hq, h0]
    · rw [if_neg hq, Nat.zero_add]
      exact ih h.2 p

theorem lookupPath_none_of_countKey_zero {fm : List (FPath × Nat)} {p : FPath}
    (h : countKey fm p = 0) : lookupPath fm p = none :=
  lookupPath_eq_none_iff.mpr (countKey_eq_zero_iff.mp h)

theorem lookupPath_eraseKey_self {fm : List (FPath × Nat)} {p : FPath}
    (h : countKey fm p ≤ 1) : lookupPath (eraseKey fm p) p = none := by
  induction fm with
  | nil => rfl
  | cons kv rest ih =>
    obtain ⟨q, j⟩ := kv
    rw [countKey_cons] at h
    by_cases hq : q = p
    · simp only [eraseKey, if_pos hq]
      rw [if_pos hq] at h
      exact lookupPath_none_of_countKey_zero (by omega)
    · simp only [eraseKey, if_neg hq, lookupPath, if_neg hq]
      rw [if_neg hq] at h
      exact ih (by omega)

/-- Erasing key `p` (which maps to `id`) removes exactly one namespace
reference to `id` and none to any other object. -/
theorem countMap_eraseKey {fm : List (FPath × Nat)} {p : FPath} {id : Nat}
    (hl : lookupPath fm p = some id) :
    ∀ j, countMap (eraseKey fm p) j = countMap fm j - (if j = id then 1 else 0) := by
  induction fm with
  | nil => simp [lookupPath] at hl
  | cons kv rest ih =>
    obtain ⟨q, v⟩ := kv
    intro j
    by_cases hq : q = p
    · simp only [lookupPath, if_pos hq] at hl
      injection hl with hl
      simp only [eraseKey, if_pos hq, countMap_cons, hl]
      by_cases hj : j = id
      · rw [if_pos hj, if_pos (by omega)]
        omega
      · rw [if_neg hj, if_neg (by omega)]
        omega
    · simp only [lookupPath, if_neg hq] at hl
      simp only [eraseKey, if_neg hq, countMap_cons, ih hl]
      by_cases hj : j = id
      · subst hj
        have := countMap_pos_of_lookup hl
        rw [if_pos rfl]
        by_cases hv : v = j
        · rw [if_pos hv]; omega
        · rw [if_neg hv]; omega
      · rw [if_neg hj]
        omega

theorem lookupPath_insertSorted_self (p : FPath) (id : Nat) :
    ∀ fm : List (FPath × Nat), lookupPath (insertSorted fm p id) p = some id := by
  intro fm
  induction fm with
  | nil => simp [insertSorted, lookupPath]
  | cons kv rest ih =>
    obtain ⟨q, j⟩ := kv
    by_cases h1 : pathLt p q
    · simp [insertSorted, h1, lookupPath]
    · by_cases h2 : p = q
      · subst h2
        rw [show insertSorted ((p, j) :: rest) p id = (p, id) :: rest by
          simp [insertSorted, pathLt_irrefl]]
        simp [lookupPath]
      · simp only [insertSorted, if_neg h1, if_neg h2, lookupPath,
          if_neg (fun he : q = p => h2 (Eq.symm he)), ih]

theorem lookupPath_insertSorted_ne {p q : FPath} (id : Nat) (h : q ≠ p) :
    ∀ fm : List (FPath × Nat), lookupPath (insertSorted fm p id) q = lookupPath fm q := by
  intro fm
  induction fm with
  | nil => simp [insertSorted, lookupPath, if_neg (fun he : p = q => h (Eq.symm he))]
  | cons kv rest ih =>
    obtain ⟨r, j⟩ := kv
    by_cases h1 : pathLt p r
    · simp only [insertSorted, if_pos h1, lookupPath,
        if_neg (fun he : p = q => h (Eq.symm he))]
    · by_cases h2 : p = r
      · subst h2
        rw [show insertSorted ((p, j) :: rest) p id = (p, id) :: rest by
          simp [insertSorted, pathLt_irrefl]]
        simp only [lookupPath, if_neg (fun he : p = q => h (Eq.symm he))]
      · by_cases h3 : r = q
        · simp only [insertSorted, if_neg h1, if_neg h2, lookupPath, if_pos h3]
        · simp only [insertSorted, if_neg h1, if_neg h2, lookupPath, if_neg h3, ih]

theorem countKey_insertSorted_ne {p q : FPath} (id : Nat) (h : q ≠ p) :
    ∀ fm : List (FPath × Nat), countKey (insertSorted fm p id) q = countKey fm q := by
  intro fm
  induction fm with
  | nil =>
    simp only [insertSorted, countKey_cons,
      if_neg (fun he : p = q => h (Eq.symm he))]
    rfl
  | cons kv rest ih =>
    obtain ⟨r, j⟩ := kv
    by_cases h1 : pathLt p r
    · simp only [insertSorted, if_pos h1, countKey_cons,
        if_neg (fun he : p = q => h (Eq.symm he)), Nat.zero_add]
    · by_cases h2 : p = r
      · subst h2
        rw [show insertSorted ((p, j) :: rest) p id = (p, id) :: rest by
          simp [insertSorted, pathLt_irrefl]]
        simp only [countKey_cons]
      · simp only [insertSorted, if_neg h1, if_neg h2, countKey_cons, ih]

theorem countMap_insertSorted {p : FPath} {id : Nat}
    {fm : List (FPath × Nat)} (h : lookupPath fm p = none) :
    ∀ j, countMap (insertSorted fm p id) j = countMap fm j + (if id = j then 1 else 0) := by
  induction fm with
  | nil =>
    intro j
    simp only [insertSorted, countMap_cons]
    unfold countMap
    simp only [List.filter_nil, List.length_nil]
    omega
  | cons kv rest ih =>
    obtain ⟨q, v⟩ := kv
    intro j
    simp only [lookupPath] at h
    by_cases hq : q = p
    · rw [if_pos hq] at h
      exact absurd h (by simp)
    · rw [if_neg hq] at h
      by_cases h1 : pathLt p q
      · simp only [insertSorted, if_pos h1, countMap_cons]
        omega
      · by_cases h2 : p = q
        · exact absurd (Eq.symm h2) hq
        · simp only [insertSorted, if_neg h1, if_neg h2, countMap_cons, ih h]
          omega

/-! ### Heap-slot lemmas -/

theorem getD_set_self {heap : List (Option FSObj)} {id : Nat} (h : id < heap.length)
    (x : Option FSObj) : (heap.set id x).getD id none = x := by
  simp [List.getD_eq_getElem?_getD, List.getElem?_set_self, h]

theorem getD_set_ne {heap : List (Option FSObj)} {id j : Nat} (h : j ≠ id)
    (x : Option FSObj) : (heap.set id x).getD j none = heap.getD j none := by
  simp [List.getD_eq_getElem?_getD, List.getElem?_set_ne (fun he => h (Eq.symm he))]

theorem unrefAt_length (heap : List (Option FSObj)) (id : Nat) :
    (unrefAt heap id).length = heap.length := by
  unfold unrefAt
  rcases heap.getD id none with _ | obj
  · rfl
  · by_cases h : obj.refs - 1 = 0 <;> simp [h]

theorem refAt_length (heap : List (Option FSObj)) (id : Nat) :
    (refAt heap id).length = heap.length := by
  unfold refAt
  rcases heap.getD id none with _ | obj <;> simp

theorem unrefAt_getD_ne {heap : List (Option FSObj)} {id j : Nat} (h : j ≠ id) :
    (unrefAt heap id).getD j none = heap.getD j none := by
  unfold unrefAt
  rcases heap.getD id none with _ | obj
  · rfl
  · dsimp only
    by_cases hr : obj.refs - 1 = 0
    · rw [if_pos hr]; exact getD_set_ne h _
    · rw [if_neg hr]; exact getD_set_ne h _

theorem refAt_getD_ne {heap : List (Option FSObj)} {id j : Nat} (h : j ≠ id) :
    (refAt heap id).getD j none = heap.getD j none := by
  unfold refAt
  rcases heap.getD id none with _ | obj
  · rfl
  · dsimp only
    exact getD_set_ne h _

theorem getD_some_lt {heap : List (Option FSObj)} {id : Nat} {obj : FSObj}
    (h : heap.getD id none = some obj) : id < heap.length := by
  by_contra hc
  push_neg at hc
  rw [List.getD_eq_getElem?_getD, List.getElem?_eq_none hc] at h
  simp at h

theorem unrefAt_getD_self {heap : List (Option FSObj)} {id : Nat} {obj : FSObj}
    (h : heap.getD id none = some obj) :
    (unrefAt heap id).getD id none =
      (if obj.refs - 1 = 0 then none else some { obj with refs := obj.refs - 1 }) := by
  have hlt := getD_some_lt h
  unfold unrefAt
  rw [h]
  dsimp only
  by_cases hr : obj.refs - 1 = 0
  · rw [if_pos hr, if_pos hr]; exact getD_set_self hlt _
  · rw [if_neg hr, if_neg hr]; exact getD_set_self hlt _

/-! ### `GetChildren` characterization -/

/-- The per-entry test of `GetChildren` is exactly "`dir ++ '/'` is a prefix
of the stored path" — equality included (a stored path equal to `dir ++ "/"`
passes, contributing the empty child name). -/
theorem childOk_iff {dir q : FPath} : childOk dir q = true ↔ (dir ++ ['/']) <+: q := by
  unfold childOk
  simp only [Bool.and_eq_true, decide_eq_true_eq, beq_iff_eq, List.isPrefixOf_iff_prefix]
  constructor
  · rintro ⟨⟨hlen, hch⟩, t, ht⟩
    subst ht
    have hlen' : 1 ≤ t.length := by
      rw [List.length_append] at hlen
      omega
    cases t with
    | nil => simp at hlen'
    | cons c t' =>
      have hc : (dir ++ c :: t').getD dir.length ' ' = c := by
        rw [List.getD_eq_getElem?_getD,
          List.getElem?_append_right (Nat.le_refl _), Nat.sub_self]
        simp
      rw [hc] at hch
      subst hch
      exact ⟨t', by simp⟩
  · rintro ⟨t, ht⟩
    subst ht
    refine ⟨⟨?_, ?_⟩, ?_⟩
    · simp only [List.append_assoc, List.length_append, List.length_cons]
      simp
    · rw [List.append_assoc, List.getD_eq_getElem?_getD,
        List.getElem?_append_right (Nat.le_refl _), Nat.sub_self]
      simp
    · exact ⟨['/'] ++ t, by simp⟩

theorem drop_childName (dir name : FPath) :
    (dir ++ '/' :: name).drop (dir.length + 1) = name := by
  simp

/-- Filtering and projecting on the key commutes with taking the key list. -/
theorem filter_keys_comm (fm : List (FPath × Nat)) (f : FPath → Bool) (g : FPath → FPath) :
    (fm.filter (fun kv => f kv.1)).map (fun kv => g kv.1)
      = ((fm.map Prod.fst).filter f).map g := by
  induction fm with
  | nil => rfl
  | cons kv rest ih =>
    rw [List.filter_cons, List.map_cons, List.filter_cons]
    by_cases hf : f kv.1
    · rw [if_pos (by rw [hf]), if_pos (by rw [hf]), List.map_cons, List.map_cons, ih]
    · rw [if_neg (by rw [Bool.not_eq_true] at hf; rw [hf]; simp),
        if_neg (by rw [Bool.not_eq_true] at hf; rw [hf]; simp), ih]

/-- Membership in `GetChildren`: every returned name comes from a stored path
`dir ++ '/' :: name`. -/
theorem mem_getChildren {w : World} {dir name : FPath}
    (h : name ∈ getChildren w dir) : (dir ++ '/' :: name) ∈ w.fileMap.map Prod.fst := by
  unfold getChildren at h
  obtain ⟨kv, hkv, hname⟩ := List.mem_map.mp h
  obtain ⟨hmem, hok⟩ := List.mem_filter.mp hkv
  obtain ⟨t, ht⟩ := childOk_iff.mp hok
  have hq : kv.1 = dir ++ '/' :: name := by
    rw [← ht] at hname ⊢
    rw [List.append_assoc] at hname ⊢
    rw [show (['/'] ++ t : FPath) = '/' :: t by rfl] at hname ⊢
    rw [drop_childName] at hname
    rw [hname]
  rw [← hq]
  exact List.mem_map.mpr ⟨kv, hmem, rfl⟩

theorem childOk_eq (dir q : FPath) : childOk dir q = (dir ++ ['/']).isPrefixOf q := by
  rw [Bool.eq_iff_iff, childOk_iff, List.isPrefixOf_iff_prefix]

/-- C8 counterexample: on a namespace holding exactly the path `"/a/"`,
`GetChildren("/a")` returns the empty child name (the stored path equals
`dir ++ "/"`, a non-strict prefix match), whereas the claim's strict-prefix
reading returns nothing. -/
theorem c8_children_counterexample :
    getChildren ⟨[some ⟨fs0, 1⟩], [(['/', 'a', '/'], 0)], []⟩ ['/', 'a'] = [[]] ∧
    childrenStrictSpec ⟨[some ⟨fs0, 1⟩], [(['/', 'a', '/'], 0)], []⟩ ['/', 'a'] = [] := by
  decide

/-- C8 (amended): `GetChildren(dir)` returns, in the map's lexicographic key
order, the substring after `dir + separator` for exactly those stored paths
that have `dir + separator` as a prefix — strict or equal, the stored path
`dir ++ "/"` itself contributing the empty name. -/
theorem c8_children_amended (w : World) (dir : FPath) (hwf : WFw w) :
    getChildren w dir
      = ((w.fileMap.map Prod.fst).filter (fun q => (dir ++ ['/']).isPrefixOf q)).map
          (fun q => q.drop (dir.length + 1)) ∧
    List.Pairwise (fun a b => pathLt a b = true)
      ((w.fileMap.map Prod.fst).filter (fun q => (dir ++ ['/']).isPrefixOf q)) := by
  constructor
  · unfold getChildren
    simp only [childOk_eq]
    exact filter_keys_comm w.fileMap _ _
  · refine List.Pairwise.filter _ ?_
    rw [List.pairwise_map]
    exact hwf.1

/-- Witness for C8's amended theorem: the spec's own example
`{"/a/x", "/a/y", "/b/z"}`, whose children under `"/a"` are `["x", "y"]`. -/
theorem c8_children_amended_witness :
    WFw ⟨[some ⟨fs0, 1⟩, some ⟨fs0, 1⟩, some ⟨fs0, 1⟩],
         [(['/', 'a', '/', 'x'], 0), (['/', 'a', '/', 'y'], 1), (['/', 'b', '/', 'z'], 2)],
         []⟩ ∧
    (getChildren ⟨[some ⟨fs0, 1⟩, some ⟨fs0, 1⟩, some ⟨fs0, 1⟩],
         [(['/', 'a', '/', 'x'], 0), (['/', 'a', '/', 'y'], 1), (['/', 'b', '/', 'z'], 2)],
         []⟩ ['/', 'a']
      = (([(['/', 'a', '/', 'x'], 0), (['/', 'a', '/', 'y'], 1),
           (['/', 'b', '/', 'z'], 2)].map Prod.fst).filter
          (fun q => ((['/', 'a'] : FPath) ++ ['/']).isPrefixOf q)).map
          (fun q => q.drop ((['/', 'a'] : FPath).length + 1))) ∧
    getChildren ⟨[some ⟨fs0, 1⟩, some ⟨fs0, 1⟩, some ⟨fs0, 1⟩],
         [(['/', 'a', '/', 'x'], 0), (['/', 'a', '/', 'y'], 1), (['/', 'b', '/', 'z'], 2)],
         []⟩ ['/', 'a'] = [['x'], ['y']] :=
  ⟨by decide,
   (c8_children_amended _ ['/', 'a'] (by decide)).1,
   by decide⟩

/-- C3: `DeleteRecursively` succeeds on any non-empty name (the empty name
trips `CHECK`), removes exactly the mappings whose path has the normalized
`dir ++ "/"` prefix — so `"/ab"` and `"/b"` survive `deleteRecursively("/a")`
— but leaves the heap, and hence every reference count, untouched: the
namespace's reference on each removed `FileState` is **not** released
(no `Unref` in the erase loop — the memory-leak bug). -/
theorem c3_deleteRecursively_no_release (w : World) (dirname : FPath) (h : dirname ≠ []) :
    ∃ w', deleteRecursively w dirname = some (w', none) ∧
      (∀ q : FPath, (lookupPath w'.fileMap q).isSome
          ↔ ((lookupPath w.fileMap q).isSome ∧ ¬ (normalizeDir dirname <+: q))) ∧
      w'.heap = w.heap ∧
      (∀ id, refsAt w' id = refsAt w id) := by
  refine ⟨⟨w.heap, w.fileMap.filter (fun kv => !((normalizeDir dirname).isPrefixOf kv.1)), w.views⟩, ?_, ?_, rfl, fun id => rfl⟩
  · unfold deleteRecursively
    rw [if_neg h]
  · intro q
    rw [lookupPath_isSome_iff, lookupPath_isSome_iff]
    constructor
    · intro hq
      obtain ⟨kv, hkv, he⟩ := List.mem_map.mp hq
      obtain ⟨hmem, hfil⟩ := List.mem_filter.mp hkv
      subst he
      refine ⟨List.mem_map.mpr ⟨kv, hmem, rfl⟩, ?_⟩
      intro hpre
      rw [Bool.not_eq_true'] at hfil
      rw [← List.isPrefixOf_iff_prefix, hfil] at hpre
      exact Bool.false_ne_true hpre
    · rintro ⟨hq, hnpre⟩
      obtain ⟨kv, hmem, he⟩ := List.mem_map.mp hq
      subst he
      refine List.mem_map.mpr ⟨kv, List.mem_filter.mpr ⟨hmem, ?_⟩, rfl⟩
      rw [Bool.not_eq_true']
      rw [← List.isPrefixOf_iff_prefix] at hnpre
      cases hx : (normalizeDir dirname).isPrefixOf kv.1
      · rfl
      · exact absurd hx hnpre

/-- Witness for C3's theorem, plus the concrete evaluation at the failing
input: the two leaked slots (ids 0 and 1) keep refcount 1 with no referent,
so the resulting world violates the reference-count invariant `WFw`. -/
theorem c3_deleteRecursively_witness :
    (['/', 'a'] : FPath) ≠ [] ∧
    (∃ w', deleteRecursively wDel ['/', 'a'] = some (w', none) ∧
      (∀ q : FPath, (lookupPath w'.fileMap q).isSome
          ↔ ((lookupPath wDel.fileMap q).isSome ∧ ¬ (normalizeDir ['/', 'a'] <+: q))) ∧
      w'.heap = wDel.heap ∧
      (∀ id, refsAt w' id = refsAt wDel id)) ∧
    deleteRecursively wDel ['/', 'a'] = some (wDelAfter, none) ∧
    WFw wDel ∧ ¬ WFw wDelAfter ∧ refsAt wDelAfter 0 = 1 :=
  ⟨by decide, c3_deleteRecursively_no_release wDel ['/', 'a'] (by decide),
   by decide, by decide, by decide, by decide⟩

/-- A path's object is a live heap slot whose reference count matches its
holders (from `WFw`). -/
theorem slot_live_of_lookup {w : World} (hwf : WFw w) {p : FPath} {id : Nat}
    (h : lookupPath w.fileMap p = some id) :
    ∃ obj, w.heap.getD id none = some obj ∧
      obj.refs = countMap w.fileMap id + w.views.count id ∧ 0 < obj.refs := by
  obtain ⟨_, _, hlt, _, hslot⟩ := hwf
  have hidlt : id < w.heap.length := hlt _ (lookupPath_mem h)
  have hs := hslot id hidlt
  have hpos := countMap_pos_of_lookup h
  unfold slotOk at hs
  cases hg : w.heap.getD id none with
  | none =>
    rw [hg] at hs
    omega
  | some obj =>
    rw [hg] at hs
    exact ⟨obj, rfl, hs.1, hs.2⟩

theorem keysNodup_eraseKey {fm : List (FPath × Nat)} (h : (fm.map Prod.fst).Nodup)
    (p : FPath) : ((eraseKey fm p).map Prod.fst).Nodup :=
  h.sublist ((eraseKey_sublist fm p).map Prod.fst)

/-- C6 (amended with `src ≠ dst`): rename fails with the not-found status
when `src` is absent, leaving the namespace untouched; otherwise the old
`dst` object (if any) loses the namespace's reference first, then the `src`
mapping's object is rebound to key `dst` and `src` erased — the moved
object's slot (content and reference count) untouched — so reading `dst`
afterwards yields exactly what `src` held and `exists(src)` is false. -/
theorem c6_rename_moves (w : World) (src dst : FPath) (hwf : WFw w) (hne : src ≠ dst) :
    (lookupPath w.fileMap src = none → renameFile w src dst = (w, some notFoundErr)) ∧
    (∀ id, lookupPath w.fileMap src = some id →
      (renameFile w src dst).2 = none ∧
      lookupPath (renameFile w src dst).1.fileMap dst = some id ∧
      fileExists (renameFile w src dst).1 src = false ∧
      heapFs (renameFile w src dst).1 id = heapFs w id ∧
      refsAt (renameFile w src dst).1 id = refsAt w id ∧
      pathContent (renameFile w src dst).1 dst = pathContent w src ∧
      (∀ id2, lookupPath w.fileMap dst = some id2 →
        refsAt (renameFile w src dst).1 id2 = refsAt w id2 - 1)) := by
  obtain ⟨hsort, hnodid, hlt, hvlt, hslot⟩ := hwf
  have hknodup := keysNodup_of_sorted hsort
  constructor
  · intro h
    unfold renameFile
    rw [h]
  · intro id hid
    cases hdst : lookupPath w.fileMap dst with
    | none =>
      have hdel : deleteFileInternal w dst = w := by
        unfold deleteFileInternal
        rw [hdst]
      have hr : renameFile w src dst =
          ({ w with fileMap := eraseKey (insertSorted w.fileMap dst id) src }, none) := by
        unfold renameFile
        rw [hid]
        dsimp only
        rw [hdel, hid]
      rw [hr]
      have hlookdst : lookupPath (eraseKey (insertSorted w.fileMap dst id) src) dst
          = some id := by
        rw [lookupPath_eraseKey_ne (fun he => hne (Eq.symm he)),
          lookupPath_insertSorted_self]
      have hlooksrc : lookupPath (eraseKey (insertSorted w.fileMap dst id) src) src
          = none := by
        apply lookupPath_eraseKey_self
        rw [countKey_insertSorted_ne id hne]
        exact countKey_le_one_of_nodup hknodup src
      refine ⟨rfl, hlookdst, ?_, rfl, rfl, ?_, ?_⟩
      · unfold fileExists
        rw [hlooksrc]
        rfl
      · unfold pathContent
        rw [hlookdst, hid]
        rfl
      · intro id2 h2
        exact absurd h2 (by simp)
    | some id2 =>
      have hne_id : id ≠ id2 := by
        intro he
        have hpair : (src, id) = (dst, id2) :=
          List.inj_on_of_nodup_map hnodid (lookupPath_mem hid) (lookupPath_mem hdst) he
        exact hne (congrArg Prod.fst hpair)
      have hdel : deleteFileInternal w dst =
          { w with heap := unrefAt w.heap id2, fileMap := eraseKey w.fileMap dst } := by
        unfold deleteFileInternal
        rw [hdst]
      have hlook1 : lookupPath (eraseKey w.fileMap dst) src = some id := by
        rw [lookupPath_eraseKey_ne hne]
        exact hid
      have hr : renameFile w src dst =
          ({ heap := unrefAt w.heap id2,
             fileMap := eraseKey (insertSorted (eraseKey w.fileMap dst) dst id) src,
             views := w.views }, none) := by
        unfold renameFile
        rw [hid]
        dsimp only
        rw [hdel]
        dsimp only
        rw [hlook1]
      rw [hr]
      have hlookdst : lookupPath (eraseKey (insertSorted (eraseKey w.fileMap dst) dst id) src)
          dst = some id := by
        rw [lookupPath_eraseKey_ne (fun he => hne (Eq.symm he)),
          lookupPath_insertSorted_self]
      have hlooksrc : lookupPath (eraseKey (insertSorted (eraseKey w.fileMap dst) dst id) src)
          src = none := by
        apply lookupPath_eraseKey_self
        rw [countKey_insertSorted_ne id hne]
        have := countKey_le_one_of_nodup (keysNodup_eraseKey hknodup dst) src
        exact this
      have hheapid : (unrefAt w.heap id2).getD id none = w.heap.getD id none :=
        unrefAt_getD_ne hne_id
      refine ⟨rfl, hlookdst, ?_, ?_, ?_, ?_, ?_⟩
      · unfold fileExists
        rw [hlooksrc]
        rfl
      · unfold heapFs
        dsimp only
        rw [hheapid]
      · unfold refsAt
        dsimp only
        rw [hheapid]
      · unfold pathContent
        dsimp only
        rw [hlookdst, hid]
        unfold heapFs
        dsimp only
        rw [hheapid]
      · intro id2' h2
        injection h2 with h2
        subst h2
        obtain ⟨obj2, hg2, _, hpos2⟩ := slot_live_of_lookup
          ⟨hsort, hnodid, hlt, hvlt, hslot⟩ hdst
        unfold refsAt
        dsimp only
        rw [hg2, unrefAt_getD_self hg2]
        by_cases hz : obj2.refs - 1 = 0
        · rw [if_pos hz]
          dsimp only
          omega
        · rw [if_neg hz]

/-- C6 counterexample at `src = dst`: renaming `"/a"` onto itself first
deletes the mapping (releasing the only reference, destroying the object),
then `file_map_[target] = file_map_[src]` default-inserts and `erase`
removes it again — afterwards the path is gone and nothing can be read,
contradicting the claim that reading `dst` yields what `src` contained and
that the moved object's reference count is untouched. -/
theorem c6_rename_counterexample :
    pathContent wRen ['/', 'a'] = some [] ∧
    (renameFile wRen ['/', 'a'] ['/', 'a']).2 = none ∧
    pathContent (renameFile wRen ['/', 'a'] ['/', 'a']).1 ['/', 'a'] = none ∧
    fileExists (renameFile wRen ['/', 'a'] ['/', 'a']).1 ['/', 'a'] = false ∧
    refsAt wRen 0 = 1 ∧ refsAt (renameFile wRen ['/', 'a'] ['/', 'a']).1 0 = 0 := by
  decide

/-- Witness for C6's theorem: renaming `"/s"` over the existing `"/d"`. -/
theorem c6_rename_moves_witness :
    WFw wRen2 ∧ (['/', 's'] : FPath) ≠ ['/', 'd'] ∧
    lookupPath wRen2.fileMap ['/', 's'] = some 0 ∧
    ((renameFile wRen2 ['/', 's'] ['/', 'd']).2 = none ∧
     lookupPath (renameFile wRen2 ['/', 's'] ['/', 'd']).1.fileMap ['/', 'd'] = some 0 ∧
     fileExists (renameFile wRen2 ['/', 's'] ['/', 'd']).1 ['/', 's'] = false ∧
     heapFs (renameFile wRen2 ['/', 's'] ['/', 'd']).1 0 = heapFs wRen2 0 ∧
     refsAt (renameFile wRen2 ['/', 's'] ['/', 'd']).1 0 = refsAt wRen2 0 ∧
     pathContent (renameFile wRen2 ['/', 's'] ['/', 'd']).1 ['/', 'd']
       = pathContent wRen2 ['/', 's'] ∧
     (∀ id2, lookupPath wRen2.fileMap ['/', 'd'] = some id2 →
       refsAt (renameFile wRen2 ['/', 's'] ['/', 'd']).1 id2 = refsAt wRen2 id2 - 1)) :=
  ⟨by decide, by decide, by decide,
   (c6_rename_moves wRen2 ['/', 's'] ['/', 'd'] (by decide) (by decide)).2 0 (by decide)⟩

theorem countMap_eq_zero_iff {fm : List (FPath × Nat)} {i : Nat} :
    countMap fm i = 0 ↔ i ∉ fm.map Prod.snd := by
  induction fm with
  | nil => simp [countMap]
  | cons kv rest ih =>
    obtain ⟨q, j⟩ := kv
    rw [countMap_cons]
    simp only [List.map_cons, List.mem_cons]
    by_cases hj : j = i
    · simp [hj]
    · rw [if_neg hj, Nat.zero_add, ih]
      constructor
      · intro hn hor
        rcases hor with he | hm
        · exact hj he.symm
        · exact hn hm
      · intro hn hm
        exact hn (Or.inr hm)

theorem countMap_le_one_of_nodup {fm : List (FPath × Nat)}
    (h : (fm.map Prod.snd).Nodup) : ∀ i, countMap fm i ≤ 1 := by
  induction fm with
  | nil => intro i; simp [countMap]
  | cons kv rest ih =>
    obtain ⟨q, j⟩ := kv
    intro i
    simp only [List.map_cons, List.nodup_cons] at h
    rw [countMap_cons]
    by_cases hj : j = i
    · have h0 : countMap rest i = 0 := countMap_eq_zero_iff.mpr (by rw [← hj]; exact h.1)
      rw [if_pos hj, h0]
    · rw [if_neg hj, Nat.zero_add]
      exact ih h.2 i

/-- C7: after `DeleteFile(p)` succeeds, the path no longer exists and no
directory listing shows it, yet a sequential/random view opened on the file
before the deletion still reads the previously written content — the
`FileState` slot survives (only the namespace's reference is released), the
reference-count invariant is preserved, and the object is destroyed exactly
when the view — the last holder — closes. -/
theorem c7_delete_view_lifetime (w : World) (p : FPath) (id : Nat)
    (hwf : WFw w) (hmap : lookupPath w.fileMap p = some id)
    (hview : w.views.count id = 1) :
    (deleteFile w p).2 = none ∧
    fileExists (deleteFile w p).1 p = false ∧
    (∀ d name, name ∈ getChildren (deleteFile w p).1 d → d ++ '/' :: name ≠ p) ∧
    heapFs (deleteFile w p).1 id = heapFs w id ∧
    (heapFs w id).isSome = true ∧
    refsAt (deleteFile w p).1 id = refsAt w id - 1 ∧
    WFw (deleteFile w p).1 ∧
    heapFs (closeView (deleteFile w p).1 id) id = none := by
  obtain ⟨hsort, hnodid, hlt, hvlt, hslot⟩ := hwf
  have hknodup := keysNodup_of_sorted hsort
  obtain ⟨obj, hg, hrefs, hpos⟩ :=
    slot_live_of_lookup ⟨hsort, hnodid, hlt, hvlt, hslot⟩ hmap
  have hcm1 : countMap w.fileMap id = 1 := by
    have h1 := countMap_pos_of_lookup hmap
    have h2 := countMap_le_one_of_nodup hnodid id
    omega
  have hrefs2 : obj.refs = 2 := by rw [hrefs, hcm1, hview]
  have hdel : deleteFile w p =
      ({ heap := unrefAt w.heap id, fileMap := eraseKey w.fileMap p,
         views := w.views }, none) := by
    unfold deleteFile
    rw [hmap]
    dsimp only
    unfold deleteFileInternal
    rw [hmap]
  rw [hdel]
  have hlookp : lookupPath (eraseKey w.fileMap p) p = none :=
    lookupPath_eraseKey_self (countKey_le_one_of_nodup hknodup p)
  have hga : (unrefAt w.heap id).getD id none = some ⟨obj.fs, obj.refs - 1⟩ := by
    rw [unrefAt_getD_self hg, if_neg (by omega)]
  refine ⟨rfl, ?_, ?_, ?_, ?_, ?_, ?_, ?_⟩
  · unfold fileExists
    rw [hlookp]
    rfl
  · intro d name hmem heq
    have hkey := mem_getChildren hmem
    rw [heq] at hkey
    have := lookupPath_isSome_iff.mpr hkey
    rw [hlookp] at this
    exact Bool.false_ne_true this
  · unfold heapFs
    dsimp only
    rw [hga, hg]
  · unfold heapFs
    rw [hg]
    rfl
  · unfold refsAt
    dsimp only
    rw [hga, hg]
  · refine ⟨hsort.sublist (eraseKey_sublist _ _), hnodid.sublist
      ((eraseKey_sublist _ _).map Prod.snd), ?_, ?_, ?_⟩
    · intro kv hkv
      dsimp only
      rw [unrefAt_length]
      exact hlt kv ((eraseKey_sublist _ _).mem hkv)
    · intro v hv
      dsimp only
      rw [unrefAt_length]
      exact hvlt v hv
    · intro i hi
      dsimp only at hi
      rw [unrefAt_length] at hi
      unfold slotOk
      dsimp only
      by_cases hii : i = id
      · subst hii
        rw [hga, countMap_eraseKey hmap _, if_pos rfl, hcm1, hview]
        dsimp only
        omega
      · rw [unrefAt_getD_ne hii, countMap_eraseKey hmap i, if_neg hii]
        have hs := hslot i hi
        unfold slotOk at hs
        cases hgi : w.heap.getD i none with
        | none =>
          rw [hgi] at hs
          refine ⟨by omega, hs.2⟩
        | some obji =>
          rw [hgi] at hs
          refine ⟨by omega, hs.2⟩
  · unfold closeView heapFs
    dsimp only
    rw [unrefAt_getD_self hga, if_pos (by dsimp only; omega)]

/-- Witness for C7: delete `"/a/x"` while a view is open, then close it. -/
theorem c7_delete_view_lifetime_witness :
    WFw wView ∧ lookupPath wView.fileMap ['/', 'a', '/', 'x'] = some 0 ∧
    wView.views.count 0 = 1 ∧
    ((deleteFile wView ['/', 'a', '/', 'x']).2 = none ∧
     fileExists (deleteFile wView ['/', 'a', '/', 'x']).1 ['/', 'a', '/', 'x'] = false ∧
     (∀ d name, name ∈ getChildren (deleteFile wView ['/', 'a', '/', 'x']).1 d →
       d ++ '/' :: name ≠ ['/', 'a', '/', 'x']) ∧
     heapFs (deleteFile wView ['/', 'a', '/', 'x']).1 0 = heapFs wView 0 ∧
     (heapFs wView 0).isSome = true ∧
     refsAt (deleteFile wView ['/', 'a', '/', 'x']).1 0 = refsAt wView 0 - 1 ∧
     WFw (deleteFile wView ['/', 'a', '/', 'x']).1 ∧
     heapFs (closeView (deleteFile wView ['/', 'a', '/', 'x']).1 0) 0 = none) ∧
    getChildren (deleteFile wView ['/', 'a', '/', 'x']).1 ['/', 'a'] = [] ∧
    heapFs (deleteFile wView ['/', 'a', '/', 'x']).1 0 = some ⟨[[5]], 1⟩ :=
  ⟨by decide, by decide, by decide,
   c7_delete_view_lifetime wView ['/', 'a', '/', 'x'] 0 (by decide) (by decide) (by decide),
   by decide, by decide⟩
